import Mathlib

/-!
Shallow embedding of `crocoddyl/locomotion/contact_sequence_wrapper.py`
(`ContactSequenceWrapper.createEESplines` and
`ContactSequenceWrapper.createCentroidalPhi`).

Timestamps and numeric samples are embedded as rationals: the duplicates the
code removes arise from identical segment-boundary sampling, so exact equality
is the intended comparison.  A 2-D numpy array is a `List Row` (list of rows);
the 3xN column-major arrays of `createEESplines` are stored as the list of
their N columns.  Calls into external libraries (pinocchio, CubicHermiteSpline,
numpy polynomial fitting) are embedded as parameters or as constructors that
record their arguments.
-/

abbrev Row := List ℚ

/-- Modelled from the spec: `findDuplicates` from `spline_utils` (imported by
the source but not under `src/`).  Single scan of the timeline; an entry is
marked a duplicate exactly when it equals an already-seen timestamp.
`seen` accumulates the timestamps scanned so far. -/
def findDuplicatesAux (seen : List ℚ) : List ℚ → List Bool
  | [] => []
  | t :: ts => (t ∈ seen : Bool) :: findDuplicatesAux (t :: seen) ts

/-- Modelled from the spec: the duplicate mask of a timeline, `true` at the
positions whose timestamp equals an earlier one. -/
def findDuplicates (ts : List ℚ) : List Bool :=
  findDuplicatesAux [] ts

/-- Modelled from the spec: `removeDuplicates` from `spline_utils` (imported by
the source but not under `src/`).  Drops the rows marked `true` in the mask,
in one pass, preserving the relative order of the remaining rows. -/
def removeDuplicates {α : Type} : List α → List Bool → List α
  | [], _ => []
  | _ :: _, [] => []
  | x :: xs, b :: bs =>
    if b then removeDuplicates xs bs else x :: removeDuplicates xs bs

/-- One entry of `cs.ms_interval_data`: a trajectory segment with its local
time axis and parallel state / state-derivative / control sample arrays. -/
structure Segment where
  time_trajectory : List ℚ
  state_trajectory : List Row
  dot_state_trajectory : List Row
  control_trajectory : List Row
deriving DecidableEq

/-- The contact-sequence container from multicontact-api: the only part the
source reads is the ordered list `ms_interval_data`. -/
structure ContactSequence where
  ms_interval_data : List Segment
deriving DecidableEq

/-- `t_traj`: concatenation of the time axes of the given segments
(the source concatenates `spl.time_trajectory` over `ms_interval_data[:-1]`). -/
def concatTimeline (segs : List Segment) : List ℚ :=
  (segs.map Segment.time_trajectory).flatten

/-- The deduplicated timeline `removeDuplicates(t_traj, findDuplicates(t_traj))`
computed at the end of `createCentroidalPhi`. -/
def dedupTimeline (segs : List Segment) : List ℚ :=
  removeDuplicates (concatTimeline segs) (findDuplicates (concatTimeline segs))

/-- The error outcomes `createCentroidalPhi` can propagate: a failed dict key
lookup (`range_def[patch]` / `f[patch]`), an out-of-range index into the list
of fitted polynomials (`poly_u[i]`), or a numpy slice-assignment shape
mismatch. -/
inductive CErr where
  | keyError (k : String)
  | indexError (i : ℕ)
  | shapeError
deriving DecidableEq

instance {α : Type} [DecidableEq α] : DecidableEq (Except CErr α) := fun a b =>
  match a, b with
  | .error e, .error e' =>
    if h : e = e' then .isTrue (by rw [h]) else .isFalse (by simp [h])
  | .error _, .ok _ => .isFalse (by simp)
  | .ok _, .error _ => .isFalse (by simp)
  | .ok v, .ok v' =>
    if h : v = v' then .isTrue (by rw [h]) else .isFalse (by simp [h])

/-- Effectful map over a list in the `Except` monad: the embedding of a Python
list comprehension / loop whose body may raise; the first raise propagates. -/
def mapE {α β : Type} (f : α → Except CErr β) : List α → Except CErr (List β)
  | [] => .ok []
  | a :: l => do
    let b ← f a
    let bs ← mapE f l
    pure (b :: bs)

/-- The numpy slice assignment `arr[n:n+nt, :] = chunk` on an array whose rows
have width 6: replaces rows `n, …, n+nt-1` and raises a shape error when the
chunk's row count differs from `nt`, the slice overruns the array, or a chunk
row does not have width 6. -/
def setSliceE (arr : List Row) (n nt : ℕ) (chunk : List Row) :
    Except CErr (List Row) :=
  if chunk.length = nt ∧ n + nt ≤ arr.length ∧ (∀ r ∈ chunk, r.length = 6)
  then .ok (arr.take n ++ chunk ++ arr.drop (n + nt))
  else .error .shapeError

/-- The ordered dict `range_def` of `createCentroidalPhi`: the fixed map from
patch name to the column range of that patch's force inside a control row
(`range(0,6)`, `range(6,12)`, `range(12,18)`, `range(18,24)`). -/
def range_def : List (String × List ℕ) :=
  [("RF_patch", List.range' 0 6), ("LF_patch", List.range' 6 6),
   ("RH_patch", List.range' 12 6), ("LH_patch", List.range' 18 6)]

/-- The patch names `range_def` knows: lookups outside this set raise. -/
def stdPatchNames : List String :=
  ["RF_patch", "LF_patch", "RH_patch", "LH_patch"]

/-- The dict lookup `range_def[patch]`, raising a key error on a missing key. -/
def rangeDefE (patch : String) : Except CErr (List ℕ) :=
  match range_def.lookup patch with
  | some r => .ok r
  | none => .error (.keyError patch)

/-- The subscript `poly_u[i]` applied at time `t`: evaluates the `i`-th fitted
polynomial, raising an index error when `i` is out of range. -/
def polyAt (polys : List (ℚ → ℚ)) (i : ℕ) (t : ℚ) : Except CErr ℚ :=
  match polys.get? i with
  | some p => .ok (p t)
  | none => .error (.indexError i)

/-- One evaluation `f_poly(t, range_def[patch])` (equally `f_dpoly` with the
derivative polynomials): the 6-wide force row of `patch` at time `t`. -/
def fRowAt (polys : List (ℚ → ℚ)) (patch : String) (t : ℚ) :
    Except CErr Row :=
  do
    let r ← rangeDefE patch
    mapE (fun i => polyAt polys i t) r

/-- Modelled from the spec: `polyfitND` from `spline_utils` (imported by the
source but not under `src/`).  The spec delegates the least-squares fit itself
to the external fitting routine, so the fit is an abstract function packaged
with its interface contract: it returns one evaluable fitted polynomial and
one evaluable derivative per column of the control array. -/
structure PolyFit where
  fit : List ℚ → List Row → List (ℚ → ℚ) × List (ℚ → ℚ)
  fit_len_fst : ∀ tt u, (fit tt u).1.length = (u.head?.getD []).length
  fit_len_snd : ∀ tt u, (fit tt u).2.length = (u.head?.getD []).length

/-- The angular-momentum row built from one state (or state-derivative) row:
columns 0-2 are `mass * x[3:6]` and columns 3-5 are `x[-3:]` (the source fills
the two column blocks by two slice assignments; they are assembled here into
the one row both assignments produce). -/
def hgRow (mass : ℚ) (x : Row) : Row :=
  ((x.drop 3).take 3).map (fun v => mass * v) ++ x.drop (x.length - 3)

/-- The intermediate container `PhiC` of `createCentroidalPhi`: per-patch force
and force-derivative arrays plus the four centroidal arrays, each preallocated
with `N` rows of width 6. -/
structure PhiAcc where
  f : List (String × List Row)
  df : List (String × List Row)
  com_vcom : List Row
  vcom_acom : List Row
  hg : List Row
  dhg : List Row
deriving DecidableEq

/-- A zero row of `np.zeros((N, 6))`. -/
def zeroRow : Row := List.replicate 6 0

/-- The freshly constructed `PhiC`: every array is `np.zeros((N, 6))`, with one
force and one force-derivative array per patch name. -/
def initPhi (patches : List String) (N : ℕ) : PhiAcc :=
  { f := patches.map (fun p => (p, List.replicate N zeroRow))
    df := patches.map (fun p => (p, List.replicate N zeroRow))
    com_vcom := List.replicate N zeroRow
    vcom_acom := List.replicate N zeroRow
    hg := List.replicate N zeroRow
    dhg := List.replicate N zeroRow }

/-- Ordered-dict lookup on an association list (first match). -/
def dictGet {α : Type} : List (String × α) → String → Option α
  | [], _ => none
  | (k, v) :: d, k' => if k = k' then some v else dictGet d k'

/-- Ordered-dict value replacement at an existing key (keys unchanged). -/
def dictUpdate {α : Type} (d : List (String × α)) (k : String) (v : α) :
    List (String × α) :=
  d.map (fun p => if p.1 = k then (k, v) else p)

/-- Ordered-dict `d[k] = v`: overwrite when present, append when absent. -/
def dictSet {α : Type} (d : List (String × α)) (k : String) (v : α) :
    List (String × α) :=
  if (dictGet d k).isSome then dictUpdate d k v else d ++ [(k, v)]

/-- Lifts the dict lookup `d[p]` into `Except`, raising `KeyError(p)`. -/
def liftKey {α : Type} (o : Option α) (p : String) : Except CErr α :=
  match o with
  | some a => .ok a
  | none => .error (.keyError p)

/-- The inner loop `for patch in patch_names:` of a segment of
`createCentroidalPhi`: for each patch, evaluate the fitted force rows over
`tt`, slice-assign them into the patch's `f` array, then the same with the
derivative polynomials into `df`. -/
def patchLoop (polys dpolys : List (ℚ → ℚ)) (tt : List ℚ) (n nt : ℕ) :
    List String → List (String × List Row) → List (String × List Row) →
    Except CErr (List (String × List Row) × List (String × List Row))
  | [], fd, dfd => .ok (fd, dfd)
  | p :: ps, fd, dfd => do
    let frows ← mapE (fRowAt polys p) tt
    let fcur ← liftKey (dictGet fd p) p
    let fnew ← setSliceE fcur n nt frows
    let dfrows ← mapE (fRowAt dpolys p) tt
    let dfcur ← liftKey (dictGet dfd p) p
    let dfnew ← setSliceE dfcur n nt dfrows
    patchLoop polys dpolys tt n nt ps (dictUpdate fd p fnew)
      (dictUpdate dfd p dfnew)

/-- The main segment loop of `createCentroidalPhi`: for each segment, write
`x[:, :6]` into `com_vcom`, `dx[:, :6]` into `vcom_acom`, the scaled/copied
angular-momentum rows into `hg`/`dhg` (the source's four column-block slice
assignments, assembled row-wise by `hgRow`), fit the control columns over this
segment's time window `tt = t_traj[n:n+nt]`, run the patch loop, and advance
the write offset by `nt = len(x)`. -/
def segLoop (pf : PolyFit) (mass : ℚ) (t_traj : List ℚ)
    (patches : List String) :
    List Segment → ℕ → PhiAcc → Except CErr PhiAcc
  | [], _, acc => .ok acc
  | seg :: rest, n, acc => do
    let x := seg.state_trajectory
    let dx := seg.dot_state_trajectory
    let u := seg.control_trajectory
    let nt := x.length
    let tt := (t_traj.drop n).take nt
    let com ← setSliceE acc.com_vcom n nt (x.map (fun r => r.take 6))
    let vcom ← setSliceE acc.vcom_acom n nt (dx.map (fun r => r.take 6))
    let hg ← setSliceE acc.hg n nt (x.map (hgRow mass))
    let dhg ← setSliceE acc.dhg n nt (dx.map (hgRow mass))
    let pd := pf.fit tt u
    let fdicts ← patchLoop pd.1 pd.2 tt n nt patches acc.f acc.df
    segLoop pf mass t_traj patches rest (n + nt)
      { f := fdicts.1, df := fdicts.2, com_vcom := com, vcom_acom := vcom,
        hg := hg, dhg := dhg }

/-- The pre-deduplication phase of `createCentroidalPhi`: concatenate the time
axes of `ms_interval_data[:-1]`, preallocate the `PhiC` arrays with
`N = len(t_traj)` rows, and run the segment loop from offset 0. -/
def preDedupAcc (pf : PolyFit) (mass : ℚ) (patches : List String)
    (cs : ContactSequence) : Except CErr PhiAcc :=
  let segs := cs.ms_interval_data.dropLast
  let t_traj := concatTimeline segs
  segLoop pf mass t_traj patches segs 0 (initPhi patches t_traj.length)

/-- The external `CubicHermiteSpline` interpolant, embedded as the record of
its three constructor arguments (strictly increasing abscissae, value rows,
derivative rows). -/
structure Spline where
  ts : List ℚ
  vals : List Row
  derivs : List Row
deriving DecidableEq

/-- Modelled from the spec: the `CentroidalPhi` result container from
`centroidal_phi` (imported by the source but not under `src/`): the centroidal
trajectory object holding the COM interpolant, the angular-momentum
interpolant, and one force interpolant per contact patch; freshly constructed
it holds no interpolants. -/
structure CentroidalPhi where
  com_vcom : Option Spline
  hg : Option Spline
  forces : List (String × Spline)
deriving DecidableEq

/-- A freshly constructed `CentroidalPhi()`. -/
def emptyCentroidalPhi : CentroidalPhi :=
  { com_vcom := none, hg := none, forces := [] }

/-- The final loop of `createCentroidalPhi`:
`self.phi_c.forces[patch] = CubicHermiteSpline(t, f[patch], df[patch])`
for each patch name, over the deduplicated arrays. -/
def forcesLoop (f2 df2 : List (String × List Row)) (td : List ℚ) :
    List String → CentroidalPhi → Except CErr CentroidalPhi
  | [], phi => .ok phi
  | p :: ps, phi => do
    let fv ← liftKey (dictGet f2 p) p
    let dfv ← liftKey (dictGet df2 p) p
    forcesLoop f2 df2 td ps
      { phi with forces := dictSet phi.forces p ⟨td, fv, dfv⟩ }

/-- `createCentroidalPhi` as a pure function of the contact sequence, the mass
(computed by the caller from `crba`), the patch names (`ee_map.keys()`) and
the previous `self.phi_c`: phase 1 fills the preallocated arrays segment by
segment, phase 2 removes the rows of exact-duplicate timestamps from the
timeline and every parallel array, and the result container receives one
interpolant per output stream built over the deduplicated timeline. -/
def createCentroidalPhi (pf : PolyFit) (mass : ℚ) (patches : List String)
    (cs : ContactSequence) (old : CentroidalPhi) : Except CErr CentroidalPhi :=
  do
    let segs := cs.ms_interval_data.dropLast
    let t_traj := concatTimeline segs
    let acc ← preDedupAcc pf mass patches cs
    let dup := findDuplicates t_traj
    let f2 := acc.f.map (fun p => (p.1, removeDuplicates p.2 dup))
    let df2 := acc.df.map (fun p => (p.1, removeDuplicates p.2 dup))
    let com2 := removeDuplicates acc.com_vcom dup
    let vcom2 := removeDuplicates acc.vcom_acom dup
    let hg2 := removeDuplicates acc.hg dup
    let dhg2 := removeDuplicates acc.dhg dup
    let td := dedupTimeline segs
    let phi1 := { old with com_vcom := some ⟨td, com2, vcom2⟩,
                           hg := some ⟨td, hg2, dhg2⟩ }
    forcesLoop f2 df2 td patches phi1

/-- The pinocchio robot model as far as the source reads it directly:
the configuration and velocity dimensions used to split a state `xs[i]`. -/
structure RModel where
  nq : ℕ
  nv : ℕ
deriving DecidableEq

/-- The external rigid-body-dynamics engine (pinocchio), over an abstract
robot-data type `D`.  `forwardKinematics` and `updateFramePlacement` store
their results in the robot data, so they return the updated data alongside any
value; `getFrameVelocity` reads the data already updated by the preceding
calls; `crba` fills the inertia matrix in the data and the source reads its
`[0, 0]` entry (the robot mass); `neutral` is the neutral configuration. -/
structure Engine (D : Type) where
  fk : RModel → D → Row → Row → D
  updFrame : RModel → D → ℕ → Row × D
  frameVel : RModel → D → ℕ → Row
  getFrameId : RModel → String → ℕ
  crba00 : RModel → D → Row → ℚ × D
  neutral : RModel → Row

/-- The mutable state a `ContactSequenceWrapper` call can reach: the wrapper's
own attributes (`cs`, `ee_map`, `ee_splines`, `phi_c`) together with the robot
model and the robot data passed as arguments. -/
structure World (D : Type) where
  rmodel : RModel
  rdata : D
  cs : ContactSequence
  ee_map : List (String × String)
  ee_splines : Option (List (String × Spline))
  phi_c : CentroidalPhi
deriving DecidableEq

/-- The timestamp axis `np.linspace(0., t_sampling*(N-1), N)` of
`createEESplines`: `i * t_sampling` for `i` in `[0, N)`. -/
def eeAbscissa (t_sampling : ℚ) (N : ℕ) : List ℚ :=
  (List.range N).map (fun i => t_sampling * (i : ℚ))

/-- The inner loop `for i in range(N):` of `createEESplines` for one patch:
run forward kinematics on the split state, store the frame translation in
column `i` of `p` and the frame linear velocity in column `i` of `m`, and
re-build the patch's spline from the partially filled arrays on every
iteration (as the source does inside the inner loop). -/
def eeInnerLoop {D : Type} (eng : Engine D) (rmodel : RModel)
    (abscissa : List ℚ) (patch fname : String) :
    List Row → D → List Row → List Row → ℕ →
    List (String × Spline) → D × List Row × List Row × List (String × Spline)
  | [], rd, p, m, _, spl => (rd, p, m, spl)
  | x :: xs, rd, p, m, i, spl =>
    let q := x.take rmodel.nq
    let v := x.drop (x.length - rmodel.nv)
    let rd1 := eng.fk rmodel rd q v
    let pr := eng.updFrame rmodel rd1 (eng.getFrameId rmodel fname)
    let vel := eng.frameVel rmodel pr.2 (eng.getFrameId rmodel fname)
    let p' := p.set i pr.1
    let m' := m.set i vel
    let spl' := dictSet spl patch ⟨abscissa, p', m'⟩
    eeInnerLoop eng rmodel abscissa patch fname xs pr.2 p' m' (i + 1) spl'

/-- The outer loop `for patch in self.ee_map.keys():` of `createEESplines`:
fresh 3xN zero arrays per patch, then the inner sampling loop. -/
def eeOuterLoop {D : Type} (eng : Engine D) (rmodel : RModel)
    (abscissa : List ℚ) (xs : List Row) (N : ℕ) :
    List (String × String) → D → List (String × Spline) →
    D × List (String × Spline)
  | [], rd, spl => (rd, spl)
  | (patch, fname) :: ps, rd, spl =>
    let r := eeInnerLoop eng rmodel abscissa patch fname xs rd
      (List.replicate N [0, 0, 0]) (List.replicate N [0, 0, 0]) 0 spl
    eeOuterLoop eng rmodel abscissa xs N ps r.1 r.2.2.2

/-- `createEESplines(rmodel, rdata, xs, t_sampling)` as a transformer of the
reachable state: builds the timestamp axis, resets `self.ee_splines` to an
empty map, runs the sampling loops, and leaves every other attribute of the
state as it was except the robot data threaded through the engine calls. -/
def createEESplinesRun {D : Type} (eng : Engine D) (w : World D)
    (xs : List Row) (t_sampling : ℚ) : World D :=
  let N := xs.length
  let abscissa := eeAbscissa t_sampling N
  let r := eeOuterLoop eng w.rmodel abscissa xs N w.ee_map w.rdata []
  { w with rdata := r.1, ee_splines := some r.2 }

/-- The inner sampling loop without the per-iteration spline construction:
only fills the position/velocity columns and threads the robot data. -/
def eeInnerOnce {D : Type} (eng : Engine D) (rmodel : RModel)
    (fname : String) :
    List Row → D → List Row → List Row → ℕ → D × List Row × List Row
  | [], rd, p, m, _ => (rd, p, m)
  | x :: xs, rd, p, m, i =>
    let q := x.take rmodel.nq
    let v := x.drop (x.length - rmodel.nv)
    let rd1 := eng.fk rmodel rd q v
    let pr := eng.updFrame rmodel rd1 (eng.getFrameId rmodel fname)
    let vel := eng.frameVel rmodel pr.2 (eng.getFrameId rmodel fname)
    eeInnerOnce eng rmodel fname xs pr.2 (p.set i pr.1) (m.set i vel) (i + 1)

/-- The outer loop of the once-after-the-loop variant: sample all columns,
then build each patch's spline exactly once. -/
def eeOuterOnce {D : Type} (eng : Engine D) (rmodel : RModel)
    (abscissa : List ℚ) (xs : List Row) (N : ℕ) :
    List (String × String) → D → List (String × Spline) →
    D × List (String × Spline)
  | [], rd, spl => (rd, spl)
  | (patch, fname) :: ps, rd, spl =>
    let r := eeInnerOnce eng rmodel fname xs rd
      (List.replicate N [0, 0, 0]) (List.replicate N [0, 0, 0]) 0
    eeOuterOnce eng rmodel abscissa xs N ps r.1
      (dictSet spl patch ⟨abscissa, r.2.1, r.2.2⟩)

/-- The optimized `createEESplines` described by the refinement claim: each
end effector's spline is constructed exactly once, after its sampling loop,
from the fully populated position and linear-velocity arrays. -/
def createEESplinesOnce {D : Type} (eng : Engine D) (w : World D)
    (xs : List Row) (t_sampling : ℚ) : World D :=
  let N := xs.length
  let abscissa := eeAbscissa t_sampling N
  let r := eeOuterOnce eng w.rmodel abscissa xs N w.ee_map w.rdata []
  { w with rdata := r.1, ee_splines := some r.2 }

/-- `createCentroidalPhi(rmodel, rdata)` as a transformer of the reachable
state: the mass is read from `crba(rmodel, rdata, neutral(rmodel))[0, 0]`
(which fills the robot data), and `self.phi_c` is reassigned only when the
whole computation finishes without raising — on a raise the wrapper is left
with the robot data already updated by `crba` and everything else intact. -/
def createCentroidalPhiRun {D : Type} (eng : Engine D) (pf : PolyFit)
    (w : World D) : World D × Except CErr Unit :=
  let mr := eng.crba00 w.rmodel w.rdata (eng.neutral w.rmodel)
  let w1 := { w with rdata := mr.2 }
  match createCentroidalPhi pf mr.1 (w.ee_map.map Prod.fst) w.cs w.phi_c with
  | .error e => (w1, .error e)
  | .ok phi => ({ w1 with phi_c := phi }, .ok ())

/-- A concrete fit: every fitted polynomial and derivative is the zero
polynomial, one per control column. -/
def trivialFit : PolyFit where
  fit := fun _ u =>
    (List.replicate (u.head?.getD []).length (fun _ => (0 : ℚ)),
     List.replicate (u.head?.getD []).length (fun _ => (0 : ℚ)))
  fit_len_fst := by intro tt u; simp
  fit_len_snd := by intro tt u; simp

/-- First segment of the shared-boundary scenario: time axis `[0, 1, 2]`,
each sample row constant at its timestamp (state width 9, control width 24). -/
def scnSeg1 : Segment where
  time_trajectory := [0, 1, 2]
  state_trajectory :=
    [List.replicate 9 0, List.replicate 9 1, List.replicate 9 2]
  dot_state_trajectory :=
    [List.replicate 9 0, List.replicate 9 1, List.replicate 9 2]
  control_trajectory := List.replicate 3 (List.replicate 24 0)

/-- Second segment of the scenario: time axis `[2, 3, 4]`; its sample at the
shared boundary `t = 2` is the constant-9 row, distinct from the first
segment's constant-2 row at the same instant. -/
def scnSeg2 : Segment where
  time_trajectory := [2, 3, 4]
  state_trajectory :=
    [List.replicate 9 9, List.replicate 9 3, List.replicate 9 4]
  dot_state_trajectory :=
    [List.replicate 9 9, List.replicate 9 3, List.replicate 9 4]
  control_trajectory := List.replicate 3 (List.replicate 24 0)

/-- The terminal zero-duration marker segment (dropped by
`ms_interval_data[:-1]`). -/
def markerSeg : Segment where
  time_trajectory := []
  state_trajectory := []
  dot_state_trajectory := []
  control_trajectory := []

/-- The scenario contact sequence with the shared boundary at `t = 2`. -/
def scnCS : ContactSequence where
  ms_interval_data := [scnSeg1, scnSeg2, markerSeg]

/-! ### Properties of the deduplication pass -/

theorem removeDuplicates_sublist {α : Type} :
    ∀ (xs : List α) (m : List Bool), (removeDuplicates xs m).Sublist xs
  | [], _ => by simp [removeDuplicates]
  | _ :: _, [] => by simp [removeDuplicates]
  | x :: xs, b :: bs => by
    by_cases hb : b <;> simp only [removeDuplicates, hb, if_true, if_false]
    · exact (removeDuplicates_sublist xs bs).cons x
    · exact (removeDuplicates_sublist xs bs).cons₂ x

/-- The surviving row count depends only on the row count and the mask, so it
is the same for the timeline and every parallel array of matching length. -/
theorem removeDuplicates_length_pair {α β : Type} :
    ∀ (xs : List α) (ys : List β) (m : List Bool), xs.length = ys.length →
    (removeDuplicates xs m).length = (removeDuplicates ys m).length
  | [], [], _, _ => rfl
  | [], _ :: _, _, h => by simp at h
  | _ :: _, [], _, h => by simp at h
  | _ :: _, _ :: _, [], _ => rfl
  | x :: xs, y :: ys, b :: bs, h => by
    have h' : xs.length = ys.length := by simpa using h
    by_cases hb : b <;> simp only [removeDuplicates, hb, if_true, if_false]
    · exact removeDuplicates_length_pair xs ys bs h'
    · simpa using removeDuplicates_length_pair xs ys bs h'

theorem findDuplicatesAux_length :
    ∀ (seen ts : List ℚ), (findDuplicatesAux seen ts).length = ts.length
  | _, [] => rfl
  | seen, t :: ts => by
    simpa [findDuplicatesAux] using findDuplicatesAux_length (t :: seen) ts

theorem mem_removeDuplicates_findAux :
    ∀ (ts seen : List ℚ) (a : ℚ),
    a ∈ removeDuplicates ts (findDuplicatesAux seen ts) ↔ a ∈ ts ∧ a ∉ seen
  | [], seen, a => by simp [removeDuplicates, findDuplicatesAux]
  | t :: ts, seen, a => by
    by_cases ht : t ∈ seen
    · rw [show findDuplicatesAux seen (t :: ts) =
          true :: findDuplicatesAux (t :: seen) ts by
        simp [findDuplicatesAux, ht]]
      rw [show removeDuplicates (t :: ts)
            (true :: findDuplicatesAux (t :: seen) ts) =
          removeDuplicates ts (findDuplicatesAux (t :: seen) ts) from rfl]
      rw [mem_removeDuplicates_findAux ts (t :: seen) a]
      constructor
      · rintro ⟨h1, h2⟩
        exact ⟨List.mem_cons_of_mem _ h1,
          fun hs => h2 (List.mem_cons_of_mem _ hs)⟩
      · rintro ⟨h1, h2⟩
        rcases List.mem_cons.mp h1 with rfl | h1
        · exact absurd ht h2
        · exact ⟨h1, fun hs => h2 (by
            rcases List.mem_cons.mp hs with rfl | h
            · exact ht
            · exact h)⟩
    · rw [show findDuplicatesAux seen (t :: ts) =
          false :: findDuplicatesAux (t :: seen) ts by
        simp [findDuplicatesAux, ht]]
      rw [show removeDuplicates (t :: ts)
            (false :: findDuplicatesAux (t :: seen) ts) =
          t :: removeDuplicates ts (findDuplicatesAux (t :: seen) ts) from rfl]
      simp only [List.mem_cons, mem_removeDuplicates_findAux ts (t :: seen) a]
      constructor
      · rintro (rfl | ⟨h1, h2⟩)
        · exact ⟨Or.inl rfl, ht⟩
        · exact ⟨Or.inr h1, fun hs => h2 (Or.inr hs)⟩
      · rintro ⟨h1 | h1, h2⟩
        · exact Or.inl h1
        · by_cases hat : a = t
          · exact Or.inl hat
          · exact Or.inr ⟨h1, fun hs => by
              rcases hs with rfl | h
              · exact hat rfl
              · exact h2 h⟩

theorem nodup_removeDuplicates_findAux :
    ∀ (ts seen : List ℚ),
    (removeDuplicates ts (findDuplicatesAux seen ts)).Nodup
  | [], _ => by simp [removeDuplicates, findDuplicatesAux]
  | t :: ts, seen => by
    by_cases ht : t ∈ seen
    · rw [show findDuplicatesAux seen (t :: ts) =
          true :: findDuplicatesAux (t :: seen) ts by
        simp [findDuplicatesAux, ht]]
      exact nodup_removeDuplicates_findAux ts (t :: seen)
    · rw [show findDuplicatesAux seen (t :: ts) =
          false :: findDuplicatesAux (t :: seen) ts by
        simp [findDuplicatesAux, ht]]
      rw [show removeDuplicates (t :: ts)
            (false :: findDuplicatesAux (t :: seen) ts) =
          t :: removeDuplicates ts (findDuplicatesAux (t :: seen) ts) from rfl]
      refine List.nodup_cons.mpr
        ⟨fun hmem => ?_, nodup_removeDuplicates_findAux ts (t :: seen)⟩
      exact ((mem_removeDuplicates_findAux ts (t :: seen) t).mp hmem).2
        (List.mem_cons_self t seen)

/-- The deduplicated timeline retains exactly one row per distinct timestamp:
its length is the number of distinct values of the input timeline. -/
theorem length_removeDuplicates_find (ts : List ℚ) :
    (removeDuplicates ts (findDuplicates ts)).length = ts.dedup.length := by
  have hnd : (removeDuplicates ts (findDuplicates ts)).Nodup :=
    nodup_removeDuplicates_findAux ts []
  have hmem : ∀ a, a ∈ removeDuplicates ts (findDuplicates ts) ↔ a ∈ ts := by
    intro a
    simpa using mem_removeDuplicates_findAux ts [] a
  have hfin : (removeDuplicates ts (findDuplicates ts)).toFinset =
      ts.toFinset :=
    Finset.ext (fun a => by simp [List.mem_toFinset, hmem a])
  calc (removeDuplicates ts (findDuplicates ts)).length
      = (removeDuplicates ts (findDuplicates ts)).toFinset.card :=
        (List.toFinset_card_of_nodup hnd).symm
    _ = ts.toFinset.card := by rw [hfin]
    _ = ts.dedup.length := List.card_toFinset ts

/-- Every pair retained by the deduplication pass is the first occurrence of
its timestamp: the timestamp is not among the already-seen ones, and the pair
sits in the original (timeline, rows) pairing at an index before which its
timestamp never occurs. -/
theorem firstOcc_removeDuplicates {α : Type} :
    ∀ (ts : List ℚ) (seen : List ℚ) (vs : List α) (p : ℚ × α),
    p ∈ removeDuplicates (ts.zip vs) (findDuplicatesAux seen ts) →
    p.1 ∉ seen ∧ ∃ i, ts.get? i = some p.1 ∧ vs.get? i = some p.2 ∧
      p.1 ∉ ts.take i
  | [], seen, vs, p => by simp [removeDuplicates, findDuplicatesAux]
  | t :: ts, seen, [], p => by simp [removeDuplicates, findDuplicatesAux]
  | t :: ts, seen, v :: vs, p => by
    by_cases ht : t ∈ seen
    · rw [show findDuplicatesAux seen (t :: ts) =
          true :: findDuplicatesAux (t :: seen) ts by
        simp [findDuplicatesAux, ht]]
      rw [show removeDuplicates ((t :: ts).zip (v :: vs))
            (true :: findDuplicatesAux (t :: seen) ts) =
          removeDuplicates (ts.zip vs) (findDuplicatesAux (t :: seen) ts)
          from rfl]
      intro hmem
      obtain ⟨h1, i, h2, h3, h4⟩ :=
        firstOcc_removeDuplicates ts (t :: seen) vs p hmem
      have hne : p.1 ≠ t := fun h => h1 (h ▸ List.mem_cons_self t seen)
      refine ⟨fun hs => h1 (List.mem_cons_of_mem _ hs), i + 1, h2, h3, ?_⟩
      simp only [List.take_succ_cons, List.mem_cons]
      rintro (h | h)
      · exact hne h
      · exact h4 h
    · rw [show findDuplicatesAux seen (t :: ts) =
          false :: findDuplicatesAux (t :: seen) ts by
        simp [findDuplicatesAux, ht]]
      rw [show removeDuplicates ((t :: ts).zip (v :: vs))
            (false :: findDuplicatesAux (t :: seen) ts) =
          (t, v) :: removeDuplicates (ts.zip vs)
            (findDuplicatesAux (t :: seen) ts) from rfl]
      intro hmem
      rcases List.mem_cons.mp hmem with rfl | hmem
      · exact ⟨ht, 0, rfl, rfl, by simp⟩
      · obtain ⟨h1, i, h2, h3, h4⟩ :=
          firstOcc_removeDuplicates ts (t :: seen) vs p hmem
        have hne : p.1 ≠ t := fun h => h1 (h ▸ List.mem_cons_self t seen)
        refine ⟨fun hs => h1 (List.mem_cons_of_mem _ hs), i + 1, h2, h3, ?_⟩
        simp only [List.take_succ_cons, List.mem_cons]
        rintro (h | h)
        · exact hne h
        · exact h4 h

/-- Applying the same mask to the zipped list is the zip of the masked lists
(for parallel arrays of equal row count). -/
theorem removeDuplicates_zip {α β : Type} :
    ∀ (xs : List α) (ys : List β) (m : List Bool), xs.length = ys.length →
    removeDuplicates (xs.zip ys) m =
      (removeDuplicates xs m).zip (removeDuplicates ys m)
  | [], [], _, _ => by simp [removeDuplicates]
  | [], _ :: _, _, h => by simp at h
  | _ :: _, [], _, h => by simp at h
  | _ :: _, _ :: _, [], _ => by simp [removeDuplicates]
  | x :: xs, y :: ys, b :: bs, h => by
    have h' : xs.length = ys.length := by simpa using h
    cases b
    · show (x, y) :: removeDuplicates (xs.zip ys) bs =
        (x :: removeDuplicates xs bs).zip (y :: removeDuplicates ys bs)
      rw [removeDuplicates_zip xs ys bs h', List.zip_cons_cons]
    · show removeDuplicates (xs.zip ys) bs =
        (removeDuplicates xs bs).zip (removeDuplicates ys bs)
      exact removeDuplicates_zip xs ys bs h'

theorem pairwise_lt_of_le_ne :
    ∀ {l : List ℚ}, l.Pairwise (· ≤ ·) → l.Pairwise (· ≠ ·) →
      l.Pairwise (· < ·)
  | [], _, _ => List.Pairwise.nil
  | x :: l, hle, hne => by
    rw [List.pairwise_cons] at hle hne ⊢
    exact ⟨fun b hb => lt_of_le_of_ne (hle.1 b hb) (hne.1 b hb),
      pairwise_lt_of_le_ne hle.2 hne.2⟩

/-- Claim C3: for every input whose concatenated timeline is monotonically
non-decreasing (repetitions being exact duplicates of already-seen
timestamps), the deduplicated timeline produced by `createCentroidalPhi` is
strictly increasing. -/
theorem claim_C3_dedup_timeline_strictly_increasing (segs : List Segment)
    (h : List.Sorted (· ≤ ·) (concatTimeline segs)) :
    List.Sorted (· < ·) (dedupTimeline segs) := by
  have hsub : (dedupTimeline segs).Sublist (concatTimeline segs) :=
    removeDuplicates_sublist _ _
  have hle : (dedupTimeline segs).Pairwise (· ≤ ·) :=
    List.Pairwise.sublist hsub h
  have hne : (dedupTimeline segs).Pairwise (· ≠ ·) :=
    nodup_removeDuplicates_findAux (concatTimeline segs) []
  exact pairwise_lt_of_le_ne hle hne

theorem claim_C3_witness :
    List.Sorted (· ≤ ·) (concatTimeline [scnSeg1, scnSeg2, markerSeg]) ∧
    List.Sorted (· < ·) (dedupTimeline [scnSeg1, scnSeg2, markerSeg]) :=
  ⟨by decide, claim_C3_dedup_timeline_strictly_increasing _ (by decide)⟩

/-! ### The per-patch column ranges -/

/-- Evaluating the fitted polynomials over a contiguous index range that stays
in bounds yields exactly the corresponding window of the polynomial list,
applied at `t`. -/
theorem mapE_polyAt_range' (polys : List (ℚ → ℚ)) (t : ℚ) :
    ∀ (k n : ℕ), n + k ≤ polys.length →
    mapE (fun i => polyAt polys i t) (List.range' n k) =
      .ok (((polys.drop n).take k).map (fun p => p t))
  | 0, n, _ => by simp [mapE]
  | k + 1, n, h => by
    have hn : n < polys.length := by omega
    rw [List.range'_succ]
    have h1 : polyAt polys n t = .ok (polys.get ⟨n, hn⟩ t) := by
      simp only [polyAt, List.get?_eq_get hn]
    have h2 : mapE (fun i => polyAt polys i t) (List.range' (n + 1) k) =
        .ok (((polys.drop (n + 1)).take k).map (fun p => p t)) :=
      mapE_polyAt_range' polys t k (n + 1) (by omega)
    rw [show List.range' (n + 1) k 1 = List.range' (n + 1) k from rfl]
    show (do
      let b ← polyAt polys n t
      let bs ← mapE (fun i => polyAt polys i t) (List.range' (n + 1) k)
      pure (b :: bs)) = _
    rw [h1, h2]
    show Except.ok (polys.get ⟨n, hn⟩ t ::
      ((polys.drop (n + 1)).take k).map (fun p => p t)) = _
    rw [List.drop_eq_getElem_cons hn]
    rfl

/-- Claim C5: the per-patch column ranges used by `createCentroidalPhi` to
slice a control vector are 6-wide, pairwise non-overlapping, and their
in-order concatenation is exactly `0, …, 23` — a gapless partition of the
expected control width 24; consequently, with 24 fitted control columns, the
fourth patch's force row at any sample time is exactly the evaluation of the
last 6 fitted column polynomials at that time. -/
theorem claim_C5_partition_completeness :
    (range_def.map Prod.snd).flatten = List.range 24 ∧
    List.Pairwise (fun r s => ∀ i ∈ r, i ∉ s) (range_def.map Prod.snd) ∧
    (∀ pr ∈ range_def, pr.2.length = 6) ∧
    (∀ (polys : List (ℚ → ℚ)) (t : ℚ), polys.length = 24 →
      fRowAt polys "LH_patch" t =
        .ok ((polys.drop 18).map (fun p => p t))) := by
  refine ⟨by decide, by decide, by decide, fun polys t hlen => ?_⟩
  have hr : rangeDefE "LH_patch" = .ok (List.range' 18 6) := by rfl
  show (do
    let r ← rangeDefE "LH_patch"
    mapE (fun i => polyAt polys i t) r) = _
  rw [hr]
  show mapE (fun i => polyAt polys i t) (List.range' 18 6) = _
  rw [mapE_polyAt_range' polys t 6 18 (by omega)]
  have hd : (polys.drop 18).take 6 = polys.drop 18 :=
    List.take_of_length_le (by simp [hlen])
  rw [hd]

/-- A concrete family of 24 fitted polynomials (all zero). -/
def zeroPolys : List (ℚ → ℚ) := List.replicate 24 (fun _ => 0)

theorem claim_C5_witness :
    zeroPolys.length = 24 ∧
    fRowAt zeroPolys "LH_patch" 0 =
      .ok ((zeroPolys.drop 18).map (fun p => p 0)) :=
  ⟨rfl, claim_C5_partition_completeness.2.2.2 zeroPolys 0 rfl⟩

/-! ### Success and length invariants of the segment loop -/

theorem bindE_ok {α β : Type} {x : Except CErr α} {f : α → Except CErr β}
    {b : β} (h : (x >>= f) = .ok b) : ∃ a, x = .ok a ∧ f a = .ok b := by
  cases x with
  | error e => exact absurd h (by simp [Bind.bind, Except.bind])
  | ok a => exact ⟨a, rfl, by simpa [Bind.bind, Except.bind] using h⟩

theorem setSliceE_ok_length {arr out chunk : List Row} {n nt : ℕ}
    (h : setSliceE arr n nt chunk = .ok out) : out.length = arr.length := by
  unfold setSliceE at h
  split at h
  · rename_i hc
    cases h
    have h1 : (arr.take n).length = n := by
      simp only [List.length_take]
      omega
    simp only [List.length_append, h1, List.length_drop, hc.1]
    omega
  · cases h

theorem setSliceE_ok_of (arr : List Row) {chunk : List Row} {n nt : ℕ}
    (h1 : chunk.length = nt) (h2 : n + nt ≤ arr.length)
    (h3 : ∀ r ∈ chunk, r.length = 6) :
    setSliceE arr n nt chunk =
      .ok (arr.take n ++ chunk ++ arr.drop (n + nt)) := by
  unfold setSliceE
  rw [if_pos ⟨h1, h2, h3⟩]

/-- All values of a force dict have row count `N`. -/
def DictLen (N : ℕ) (d : List (String × List Row)) : Prop :=
  ∀ p ∈ d, p.2.length = N

/-- All six kinds of preallocated arrays have row count `N`. -/
def AccLen (N : ℕ) (acc : PhiAcc) : Prop :=
  DictLen N acc.f ∧ DictLen N acc.df ∧ acc.com_vcom.length = N ∧
  acc.vcom_acom.length = N ∧ acc.hg.length = N ∧ acc.dhg.length = N

theorem initPhi_len (patches : List String) (N : ℕ) :
    AccLen N (initPhi patches N) := by
  refine ⟨?_, ?_, by simp [initPhi], by simp [initPhi], by simp [initPhi],
    by simp [initPhi]⟩ <;>
  · intro p hp
    simp only [initPhi, List.mem_map] at hp
    obtain ⟨q, _, rfl⟩ := hp
    simp

theorem dictGet_mem {α : Type} :
    ∀ {d : List (String × α)} {k : String} {v : α},
    dictGet d k = some v → (k, v) ∈ d
  | [], _, _, h => by simp [dictGet] at h
  | (k', v') :: d, k, v, h => by
    by_cases hk : k' = k
    · subst hk
      rw [show dictGet ((k', v') :: d) k' = some v' by simp [dictGet]] at h
      cases h
      exact List.mem_cons_self _ _
    · rw [show dictGet ((k', v') :: d) k = dictGet d k by
        simp [dictGet, hk]] at h
      exact List.mem_cons_of_mem _ (dictGet_mem h)

theorem dictUpdate_mem {α : Type} {d : List (String × α)} {k : String}
    {v : α} {q : String × α} (h : q ∈ dictUpdate d k v) :
    q = (k, v) ∨ q ∈ d := by
  simp only [dictUpdate, List.mem_map] at h
  obtain ⟨p, hp, hq⟩ := h
  by_cases hpk : p.1 = k
  · simp only [hpk, if_true] at hq
    exact Or.inl hq.symm
  · simp only [hpk, if_false] at hq
    exact Or.inr (hq ▸ hp)

theorem dictUpdate_keys {α : Type} (d : List (String × α)) (k : String)
    (v : α) : (dictUpdate d k v).map Prod.fst = d.map Prod.fst := by
  simp only [dictUpdate, List.map_map]
  refine List.map_congr_left (fun p _ => ?_)
  by_cases hpk : p.1 = k <;> simp [hpk]

theorem liftKey_ok {α : Type} {o : Option α} {p : String} {a : α}
    (h : liftKey o p = .ok a) : o = some a := by
  cases o with
  | none => exact absurd h (by simp [liftKey])
  | some b =>
    rw [show liftKey (some b) p = .ok b from rfl] at h
    cases h
    rfl

theorem patchLoop_pres {polys dpolys : List (ℚ → ℚ)} {tt : List ℚ}
    {n nt N : ℕ} :
    ∀ {ps : List String}
      {fd dfd : List (String × List Row)}
      {out : List (String × List Row) × List (String × List Row)},
    patchLoop polys dpolys tt n nt ps fd dfd = .ok out →
    DictLen N fd → DictLen N dfd →
    DictLen N out.1 ∧ DictLen N out.2 ∧
      out.1.map Prod.fst = fd.map Prod.fst ∧
      out.2.map Prod.fst = dfd.map Prod.fst
  | [], fd, dfd, out, h, h1, h2 => by
    cases h
    exact ⟨h1, h2, rfl, rfl⟩
  | p :: ps, fd, dfd, out, h, h1, h2 => by
    obtain ⟨frows, hf, h⟩ := bindE_ok h
    obtain ⟨fcur, hfc, h⟩ := bindE_ok h
    obtain ⟨fnew, hfn, h⟩ := bindE_ok h
    obtain ⟨dfrows, hdf, h⟩ := bindE_ok h
    obtain ⟨dfcur, hdfc, h⟩ := bindE_ok h
    obtain ⟨dfnew, hdfn, h⟩ := bindE_ok h
    have hfn_len : fnew.length = N :=
      (setSliceE_ok_length hfn).trans (h1 _ (dictGet_mem (liftKey_ok hfc)))
    have hdfn_len : dfnew.length = N :=
      (setSliceE_ok_length hdfn).trans (h2 _ (dictGet_mem (liftKey_ok hdfc)))
    have h1' : DictLen N (dictUpdate fd p fnew) := fun q hq => by
      rcases dictUpdate_mem hq with rfl | hq
      · exact hfn_len
      · exact h1 _ hq
    have h2' : DictLen N (dictUpdate dfd p dfnew) := fun q hq => by
      rcases dictUpdate_mem hq with rfl | hq
      · exact hdfn_len
      · exact h2 _ hq
    obtain ⟨o1, o2, o3, o4⟩ := patchLoop_pres h h1' h2'
    exact ⟨o1, o2, o3.trans (dictUpdate_keys fd p fnew),
      o4.trans (dictUpdate_keys dfd p dfnew)⟩

/-- Whenever the segment loop finishes without raising, the preallocated row
counts and the dict key lists are untouched. -/
theorem segLoop_pres {pf : PolyFit} {mass : ℚ} {t_traj : List ℚ}
    {patches : List String} {N : ℕ} :
    ∀ {segs : List Segment} {n : ℕ} {acc out : PhiAcc},
    segLoop pf mass t_traj patches segs n acc = .ok out →
    AccLen N acc →
    AccLen N out ∧ out.f.map Prod.fst = acc.f.map Prod.fst ∧
      out.df.map Prod.fst = acc.df.map Prod.fst
  | [], n, acc, out, h, hlen => by
    cases h
    exact ⟨hlen, rfl, rfl⟩
  | seg :: rest, n, acc, out, h, hlen => by
    obtain ⟨com, hcom, h⟩ := bindE_ok h
    obtain ⟨vcom, hvcom, h⟩ := bindE_ok h
    obtain ⟨hg, hhg, h⟩ := bindE_ok h
    obtain ⟨dhg, hdhg, h⟩ := bindE_ok h
    obtain ⟨fdicts, hfd, h⟩ := bindE_ok h
    obtain ⟨hd1, hd2, hk1, hk2⟩ :=
      patchLoop_pres (N := N) hfd hlen.1 hlen.2.1
    have hlen' : AccLen N
        { f := fdicts.1, df := fdicts.2, com_vcom := com, vcom_acom := vcom,
          hg := hg, dhg := dhg } :=
      ⟨hd1, hd2, (setSliceE_ok_length hcom).trans hlen.2.2.1,
        (setSliceE_ok_length hvcom).trans hlen.2.2.2.1,
        (setSliceE_ok_length hhg).trans hlen.2.2.2.2.1,
        (setSliceE_ok_length hdhg).trans hlen.2.2.2.2.2⟩
    obtain ⟨o1, o2, o3⟩ := segLoop_pres h hlen'
    exact ⟨o1, o2.trans hk1, o3.trans hk2⟩

theorem dictGet_isSome_of_key {α : Type} {d : List (String × α)}
    {k : String} (h : k ∈ d.map Prod.fst) : ∃ v, dictGet d k = some v := by
  induction d with
  | nil => simp at h
  | cons p d ih =>
    cases p with
    | mk k0 v0 =>
      by_cases hk : k0 = k
      · subst hk
        exact ⟨v0, by simp [dictGet]⟩
      · have h' : k ∈ d.map Prod.fst := by
          rw [List.map_cons] at h
          rcases List.mem_cons.mp h with h1 | h1
          · exact absurd h1.symm hk
          · exact h1
        obtain ⟨v, hv⟩ := ih h'
        exact ⟨v, by rw [show dictGet ((k0, v0) :: d) k = dictGet d k by
          simp [dictGet, hk]]; exact hv⟩

theorem dictUpdate_get_self {α : Type} {d : List (String × α)} {k : String}
    {w v : α} (h : dictGet d k = some w) :
    dictGet (dictUpdate d k v) k = some v := by
  induction d with
  | nil => simp [dictGet] at h
  | cons p d ih =>
    cases p with
    | mk k0 v0 =>
      by_cases hk : k0 = k
      · subst hk
        rw [show dictUpdate ((k0, v0) :: d) k0 v =
            (k0, v) :: dictUpdate d k0 v by simp [dictUpdate]]
        simp [dictGet]
      · rw [show dictGet ((k0, v0) :: d) k = dictGet d k by
          simp [dictGet, hk]] at h
        rw [show dictUpdate ((k0, v0) :: d) k v =
            (k0, v0) :: dictUpdate d k v by simp [dictUpdate, hk]]
        rw [show dictGet ((k0, v0) :: dictUpdate d k v) k =
            dictGet (dictUpdate d k v) k by simp [dictGet, hk]]
        exact ih h

theorem dictGet_append_right {α : Type} {d : List (String × α)} {k : String}
    {v : α} (h : dictGet d k = none) :
    dictGet (d ++ [(k, v)]) k = some v := by
  induction d with
  | nil => simp [dictGet]
  | cons p d ih =>
    cases p with
    | mk k0 v0 =>
      by_cases hk : k0 = k
      · subst hk
        simp [dictGet] at h
      · rw [show dictGet ((k0, v0) :: d) k = dictGet d k by
          simp [dictGet, hk]] at h
        rw [show ((k0, v0) :: d) ++ [(k, v)] = (k0, v0) :: (d ++ [(k, v)])
            from rfl]
        rw [show dictGet ((k0, v0) :: (d ++ [(k, v)])) k =
            dictGet (d ++ [(k, v)]) k by simp [dictGet, hk]]
        exact ih h

theorem dictGet_append_ne {α : Type} (d : List (String × α))
    (k k' : String) (v : α) (hne : k' ≠ k) :
    dictGet (d ++ [(k, v)]) k' = dictGet d k' := by
  induction d with
  | nil => simp [dictGet, Ne.symm hne]
  | cons p d ih =>
    cases p with
    | mk k0 v0 =>
      rw [show ((k0, v0) :: d) ++ [(k, v)] = (k0, v0) :: (d ++ [(k, v)])
          from rfl]
      by_cases h0 : k0 = k'
      · subst h0
        simp [dictGet]
      · rw [show dictGet ((k0, v0) :: (d ++ [(k, v)])) k' =
            dictGet (d ++ [(k, v)]) k' by simp [dictGet, h0]]
        rw [show dictGet ((k0, v0) :: d) k' = dictGet d k' by
          simp [dictGet, h0]]
        exact ih

theorem dictSet_get_self {α : Type} (d : List (String × α)) (k : String)
    (v : α) : dictGet (dictSet d k v) k = some v := by
  unfold dictSet
  cases ho : dictGet d k with
  | none => simpa [ho] using dictGet_append_right (v := v) ho
  | some w => simpa [ho] using dictUpdate_get_self (v := v) ho

theorem dictUpdate_get_ne {α : Type} :
    ∀ (d : List (String × α)) (k k' : String) (v : α), k' ≠ k →
    dictGet (dictUpdate d k v) k' = dictGet d k'
  | [], _, _, _, _ => rfl
  | (k0, v0) :: d, k, k', v, hne => by
    by_cases hk : k0 = k
    · subst hk
      rw [show dictUpdate ((k0, v0) :: d) k0 v =
          (k0, v) :: dictUpdate d k0 v by simp [dictUpdate]]
      rw [show dictGet ((k0, v) :: dictUpdate d k0 v) k' =
          dictGet (dictUpdate d k0 v) k' by simp [dictGet, Ne.symm hne]]
      rw [show dictGet ((k0, v0) :: d) k' = dictGet d k' by
        simp [dictGet, Ne.symm hne]]
      exact dictUpdate_get_ne d k0 k' v hne
    · rw [show dictUpdate ((k0, v0) :: d) k v =
          (k0, v0) :: dictUpdate d k v by simp [dictUpdate, hk]]
      by_cases h0 : k0 = k'
      · subst h0
        simp [dictGet]
      · rw [show dictGet ((k0, v0) :: dictUpdate d k v) k' =
            dictGet (dictUpdate d k v) k' by simp [dictGet, h0]]
        rw [show dictGet ((k0, v0) :: d) k' = dictGet d k' by
          simp [dictGet, h0]]
        exact dictUpdate_get_ne d k k' v hne

theorem dictSet_get_ne {α : Type} (d : List (String × α)) (k k' : String)
    (v : α) (hne : k' ≠ k) : dictGet (dictSet d k v) k' = dictGet d k' := by
  unfold dictSet
  by_cases ho : (dictGet d k).isSome
  · simp only [ho, if_true]
    exact dictUpdate_get_ne d k k' v hne
  · simp only [ho, if_false, Bool.false_eq_true]
    exact dictGet_append_ne d k k' v hne

/-- The final spline-construction loop: leaves the COM and angular-momentum
interpolants alone, leaves force entries of unprocessed patch names alone, and
stores for each processed patch the interpolant built from that patch's
deduplicated force and force-derivative arrays. -/
theorem forcesLoop_pres {f2 df2 : List (String × List Row)} {td : List ℚ} :
    ∀ {ps : List String} {phi out : CentroidalPhi},
    forcesLoop f2 df2 td ps phi = .ok out →
    out.com_vcom = phi.com_vcom ∧ out.hg = phi.hg ∧
    (∀ k, k ∉ ps → dictGet out.forces k = dictGet phi.forces k) ∧
    (∀ p ∈ ps, ∃ fv dfv, dictGet f2 p = some fv ∧ dictGet df2 p = some dfv ∧
      dictGet out.forces p = some ⟨td, fv, dfv⟩)
  | [], phi, out, h => by
    cases h
    exact ⟨rfl, rfl, fun _ _ => rfl, fun p hp => absurd hp (by simp)⟩
  | p :: ps, phi, out, h => by
    obtain ⟨fv, hfv, h⟩ := bindE_ok h
    obtain ⟨dfv, hdfv, h⟩ := bindE_ok h
    obtain ⟨o1, o2, o3, o4⟩ := forcesLoop_pres h
    refine ⟨o1, o2, fun k hk => ?_, fun q hq => ?_⟩
    · rw [o3 k (fun hmem => hk (List.mem_cons_of_mem _ hmem))]
      exact dictSet_get_ne _ _ _ _ (fun he => hk (he ▸ List.mem_cons_self _ _))
    · by_cases hqs : q ∈ ps
      · exact o4 q hqs
      · rcases List.mem_cons.mp hq with rfl | hq'
        · refine ⟨fv, dfv, liftKey_ok hfv, liftKey_ok hdfv, ?_⟩
          rw [o3 q hqs]
          exact dictSet_get_self _ _ _
        · exact absurd hq' hqs

/-- Claim C2: whenever `createCentroidalPhi` completes, every parallel array
handed to interpolant construction — COM values and derivatives, angular
momentum and its rate, and each patch's force and force-rate arrays — has the
same row count, the length of the deduplicated timeline. -/
theorem claim_C2_row_count_consistency (pf : PolyFit) (mass : ℚ)
    (patches : List String) (cs : ContactSequence) (old phi : CentroidalPhi)
    (h : createCentroidalPhi pf mass patches cs old = .ok phi) :
    (∃ v d, phi.com_vcom = some ⟨dedupTimeline cs.ms_interval_data.dropLast,
        v, d⟩ ∧
      v.length = (dedupTimeline cs.ms_interval_data.dropLast).length ∧
      d.length = (dedupTimeline cs.ms_interval_data.dropLast).length) ∧
    (∃ v d, phi.hg = some ⟨dedupTimeline cs.ms_interval_data.dropLast,
        v, d⟩ ∧
      v.length = (dedupTimeline cs.ms_interval_data.dropLast).length ∧
      d.length = (dedupTimeline cs.ms_interval_data.dropLast).length) ∧
    (∀ p ∈ patches, ∃ s, dictGet phi.forces p = some s ∧
      s.ts = dedupTimeline cs.ms_interval_data.dropLast ∧
      s.vals.length = (dedupTimeline cs.ms_interval_data.dropLast).length ∧
      s.derivs.length =
        (dedupTimeline cs.ms_interval_data.dropLast).length) := by
  obtain ⟨acc, hacc, h⟩ := bindE_ok h
  set segs := cs.ms_interval_data.dropLast with hsegs
  set t_traj := concatTimeline segs with ht
  set dup := findDuplicates t_traj with hdup
  set td := dedupTimeline segs with htd
  have hN : AccLen t_traj.length acc ∧
      acc.f.map Prod.fst = (initPhi patches t_traj.length).f.map Prod.fst ∧
      acc.df.map Prod.fst =
        (initPhi patches t_traj.length).df.map Prod.fst :=
    segLoop_pres hacc (initPhi_len patches t_traj.length)
  have hmapid : ∀ c : List Row,
      (patches.map (fun p => (p, c))).map Prod.fst = patches := by
    intro c
    rw [List.map_map]
    exact (List.map_congr_left (fun a _ => rfl)).trans (List.map_id patches)
  have hkeys : acc.f.map Prod.fst = patches := by
    rw [hN.2.1]
    exact hmapid _
  have hdkeys : acc.df.map Prod.fst = patches := by
    rw [hN.2.2]
    exact hmapid _
  -- length of any mask-filtered array of full height
  have hlen_rd : ∀ arr : List Row, arr.length = t_traj.length →
      (removeDuplicates arr dup).length = td.length := by
    intro arr hl
    rw [htd]
    exact removeDuplicates_length_pair arr t_traj dup hl
  obtain ⟨o1, o2, o3, o4⟩ := forcesLoop_pres h
  refine ⟨?_, ?_, ?_⟩
  · exact ⟨removeDuplicates acc.com_vcom dup,
      removeDuplicates acc.vcom_acom dup, by rw [o1],
      hlen_rd _ hN.1.2.2.1, hlen_rd _ hN.1.2.2.2.1⟩
  · exact ⟨removeDuplicates acc.hg dup, removeDuplicates acc.dhg dup,
      by rw [o2], hlen_rd _ hN.1.2.2.2.2.1, hlen_rd _ hN.1.2.2.2.2.2⟩
  · intro p hp
    obtain ⟨fv, dfv, hfv, hdfv, hget⟩ := o4 p hp
    refine ⟨⟨td, fv, dfv⟩, hget, rfl, ?_, ?_⟩
    · have hmem := dictGet_mem hfv
      simp only [List.mem_map] at hmem
      obtain ⟨q, hq, he⟩ := hmem
      have hsnd : removeDuplicates q.2 dup = fv := by
        simpa using congrArg Prod.snd he
      rw [← hsnd]
      exact hlen_rd _ (hN.1.1 _ hq)
    · have hmem := dictGet_mem hdfv
      simp only [List.mem_map] at hmem
      obtain ⟨q, hq, he⟩ := hmem
      have hsnd : removeDuplicates q.2 dup = dfv := by
        simpa using congrArg Prod.snd he
      rw [← hsnd]
      exact hlen_rd _ (hN.1.2.1 _ hq)

/-- A width-6 constant row (the first 6 columns of the scenario samples). -/
def rowOf (t : ℚ) : Row := List.replicate 6 t

/-- The deduplicated COM rows of the scenario: the `t = 2` row comes from the
first segment (constant 2), not from the second segment's boundary sample
(constant 9). -/
def scnComRows : List Row := [rowOf 0, rowOf 1, rowOf 2, rowOf 3, rowOf 4]

/-- The deduplicated angular-momentum rows of the scenario (`mass = 2`). -/
def scnHgRows : List Row :=
  [[0, 0, 0, 0, 0, 0], [2, 2, 2, 1, 1, 1], [4, 4, 4, 2, 2, 2],
   [6, 6, 6, 3, 3, 3], [8, 8, 8, 4, 4, 4]]

/-- The force interpolant of every patch in the scenario (zero polynomials). -/
def scnForceSpline : Spline :=
  ⟨[0, 1, 2, 3, 4], List.replicate 5 zeroRow, List.replicate 5 zeroRow⟩

/-- The full scenario output of `createCentroidalPhi`. -/
def scnPhi : CentroidalPhi where
  com_vcom := some ⟨[0, 1, 2, 3, 4], scnComRows, scnComRows⟩
  hg := some ⟨[0, 1, 2, 3, 4], scnHgRows, scnHgRows⟩
  forces :=
    [("RF_patch", scnForceSpline), ("LF_patch", scnForceSpline),
     ("RH_patch", scnForceSpline), ("LH_patch", scnForceSpline)]


/-- The positions of exact-duplicate timestamps in the concatenated timeline
of the given segments (the mask `findDuplicates(t_traj)`). -/
def dupMask (segs : List Segment) : List Bool :=
  findDuplicates (concatTimeline segs)

/-- The number of timestamps of the concatenated timeline that exactly equal
an earlier timestamp. -/
def dupCount (segs : List Segment) : ℕ :=
  (concatTimeline segs).length - (concatTimeline segs).dedup.length

/-- The parallel value/derivative arrays of the pre-deduplication container:
`com_vcom`, `vcom_acom`, `hg`, `dhg`, and each patch's `f` and `df` array. -/
def accArrays (acc : PhiAcc) : List (List Row) :=
  [acc.com_vcom, acc.vcom_acom, acc.hg, acc.dhg] ++ acc.f.map Prod.snd ++
    acc.df.map Prod.snd

/-- Claim C1: on any run of `createCentroidalPhi` that completes its segment
pass, the deduplication step keeps exactly `N_total − k` rows of the timeline
and of every parallel array (`k` the number of exact-duplicate timestamps),
preserves relative order, and every retained row carries the values of its
timestamp's first occurrence; concretely, the segments with time axes
`[0,1,2]` and `[2,3,4]` yield the 5-row timeline `[0,1,2,3,4]` whose `t = 2`
row is the first segment's last sample, not the second segment's boundary
sample. -/
theorem claim_C1_dedup_correctness (pf : PolyFit) (mass : ℚ)
    (patches : List String) (cs : ContactSequence) (acc : PhiAcc)
    (h : preDedupAcc pf mass patches cs = .ok acc) :
    ((dedupTimeline cs.ms_interval_data.dropLast).length =
        (concatTimeline cs.ms_interval_data.dropLast).length -
          dupCount cs.ms_interval_data.dropLast ∧
      (dedupTimeline cs.ms_interval_data.dropLast).Sublist
        (concatTimeline cs.ms_interval_data.dropLast)) ∧
    (∀ arr ∈ accArrays acc,
      (removeDuplicates arr (dupMask cs.ms_interval_data.dropLast)).length =
        (concatTimeline cs.ms_interval_data.dropLast).length -
          dupCount cs.ms_interval_data.dropLast ∧
      (removeDuplicates arr (dupMask cs.ms_interval_data.dropLast)).Sublist
        arr ∧
      (∀ pr ∈ (dedupTimeline cs.ms_interval_data.dropLast).zip
          (removeDuplicates arr (dupMask cs.ms_interval_data.dropLast)),
        ∃ i, (concatTimeline cs.ms_interval_data.dropLast).get? i =
            some pr.1 ∧
          arr.get? i = some pr.2 ∧
          pr.1 ∉ (concatTimeline cs.ms_interval_data.dropLast).take i)) ∧
    (dedupTimeline scnCS.ms_interval_data.dropLast = [0, 1, 2, 3, 4] ∧
      createCentroidalPhi trivialFit 2 stdPatchNames scnCS
        emptyCentroidalPhi = .ok scnPhi ∧
      scnPhi.com_vcom = some ⟨[0, 1, 2, 3, 4], scnComRows, scnComRows⟩ ∧
      scnComRows.get? 2 = some (rowOf 2) ∧
      scnSeg1.state_trajectory.get? 2 = some (List.replicate 9 2) ∧
      rowOf 2 = (List.replicate 9 2).take 6 ∧
      scnSeg2.state_trajectory.get? 0 = some (List.replicate 9 9) ∧
      rowOf 2 ≠ ((List.replicate 9 9).take 6 : Row)) := by
  set segs := cs.ms_interval_data.dropLast with hsegs
  set t_traj := concatTimeline segs with ht
  have hdedup_le : t_traj.dedup.length ≤ t_traj.length :=
    (List.dedup_sublist t_traj).length_le
  have hNk : t_traj.length - dupCount segs = t_traj.dedup.length := by
    unfold dupCount
    rw [← ht]
    omega
  have hacclen : AccLen t_traj.length acc :=
    (segLoop_pres h (initPhi_len patches t_traj.length)).1
  have harrlen : ∀ arr ∈ accArrays acc, arr.length = t_traj.length := by
    intro arr harr
    unfold accArrays at harr
    simp only [List.append_assoc, List.mem_append, List.mem_cons,
      List.mem_singleton, List.mem_map] at harr
    rcases harr with ((rfl | rfl | rfl | rfl | hfalse) | hf | hdf)
    · exact hacclen.2.2.1
    · exact hacclen.2.2.2.1
    · exact hacclen.2.2.2.2.1
    · exact hacclen.2.2.2.2.2
    · exact absurd hfalse (by simp)
    · obtain ⟨q, hq, rfl⟩ := hf
      exact hacclen.1 _ hq
    · obtain ⟨q, hq, rfl⟩ := hdf
      exact hacclen.2.1 _ hq
  refine ⟨⟨?_, removeDuplicates_sublist _ _⟩, ?_, ?_⟩
  · rw [hNk]
    exact length_removeDuplicates_find t_traj
  · intro arr harr
    have hlen : arr.length = t_traj.length := harrlen arr harr
    refine ⟨?_, removeDuplicates_sublist _ _, ?_⟩
    · rw [hNk, show dupMask segs = findDuplicates t_traj from rfl,
        removeDuplicates_length_pair arr t_traj (findDuplicates t_traj) hlen]
      exact length_removeDuplicates_find t_traj
    · intro pr hpr
      rw [show dupMask segs = findDuplicates t_traj from rfl] at hpr
      rw [show dedupTimeline segs =
          removeDuplicates t_traj (findDuplicates t_traj) from rfl] at hpr
      rw [← removeDuplicates_zip t_traj arr (findDuplicates t_traj)
        hlen.symm] at hpr
      obtain ⟨-, i, h1, h2, h3⟩ :=
        firstOcc_removeDuplicates t_traj [] arr pr hpr
      exact ⟨i, h1, h2, h3⟩
  · refine ⟨by with_unfolding_all decide, by with_unfolding_all decide,
      by with_unfolding_all decide, by with_unfolding_all decide,
      by with_unfolding_all decide, by with_unfolding_all decide,
      by with_unfolding_all decide, by with_unfolding_all decide⟩

/-- The scenario's pre-deduplication container: 6 rows, the boundary `t = 2`
appearing twice (as the constant-2 row from segment 1 and the constant-9 row
from segment 2). -/
def scnAcc : PhiAcc where
  f := stdPatchNames.map (fun p => (p, List.replicate 6 zeroRow))
  df := stdPatchNames.map (fun p => (p, List.replicate 6 zeroRow))
  com_vcom := [rowOf 0, rowOf 1, rowOf 2, rowOf 9, rowOf 3, rowOf 4]
  vcom_acom := [rowOf 0, rowOf 1, rowOf 2, rowOf 9, rowOf 3, rowOf 4]
  hg := [[0, 0, 0, 0, 0, 0], [2, 2, 2, 1, 1, 1], [4, 4, 4, 2, 2, 2],
    [18, 18, 18, 9, 9, 9], [6, 6, 6, 3, 3, 3], [8, 8, 8, 4, 4, 4]]
  dhg := [[0, 0, 0, 0, 0, 0], [2, 2, 2, 1, 1, 1], [4, 4, 4, 2, 2, 2],
    [18, 18, 18, 9, 9, 9], [6, 6, 6, 3, 3, 3], [8, 8, 8, 4, 4, 4]]

theorem claim_C1_witness :
    preDedupAcc trivialFit 2 stdPatchNames scnCS = .ok scnAcc ∧
    (dedupTimeline scnCS.ms_interval_data.dropLast).length =
      (concatTimeline scnCS.ms_interval_data.dropLast).length -
        dupCount scnCS.ms_interval_data.dropLast :=
  ⟨by with_unfolding_all decide,
   (claim_C1_dedup_correctness trivialFit 2 stdPatchNames scnCS scnAcc
     (by with_unfolding_all decide)).1.1⟩

theorem claim_C2_witness :
    createCentroidalPhi trivialFit 2 stdPatchNames scnCS emptyCentroidalPhi =
      .ok scnPhi ∧
    (∃ v d, scnPhi.com_vcom =
        some ⟨dedupTimeline scnCS.ms_interval_data.dropLast, v, d⟩ ∧
      v.length = (dedupTimeline scnCS.ms_interval_data.dropLast).length ∧
      d.length = (dedupTimeline scnCS.ms_interval_data.dropLast).length) :=
  ⟨by with_unfolding_all decide,
   (claim_C2_row_count_consistency trivialFit 2 stdPatchNames scnCS
     emptyCentroidalPhi scnPhi (by with_unfolding_all decide)).1⟩

/-! ### Characterization of a completing segment pass -/

theorem ok_bind {α β : Type} (a : α) (f : α → Except CErr β) :
    (Except.ok a >>= f : Except CErr β) = f a := rfl

theorem mapE_ok_of_all {α β : Type} {f : α → Except CErr β} :
    ∀ {l : List α}, (∀ a ∈ l, ∃ b, f a = .ok b) →
    ∃ bs, mapE f l = .ok bs ∧ bs.length = l.length ∧
      ∀ b ∈ bs, ∃ a ∈ l, f a = .ok b
  | [], _ => ⟨[], rfl, rfl, by simp⟩
  | a :: l, h => by
    obtain ⟨b, hb⟩ := h a (List.mem_cons_self a l)
    obtain ⟨bs, hbs, hlen, hmem⟩ :=
      mapE_ok_of_all (l := l) (fun a' ha' => h a' (List.mem_cons_of_mem _ ha'))
    refine ⟨b :: bs, ?_, by simp [hlen], ?_⟩
    · show (f a >>= fun b => mapE f l >>= fun bs => pure (b :: bs)) = _
      rw [hb, ok_bind, hbs, ok_bind]
      rfl
    · intro b' hb'
      rcases List.mem_cons.mp hb' with rfl | hb'
      · exact ⟨a, List.mem_cons_self a l, hb⟩
      · obtain ⟨a', ha', hfa'⟩ := hmem b' hb'
        exact ⟨a', List.mem_cons_of_mem _ ha', hfa'⟩

theorem fRowAt_ok {polys : List (ℚ → ℚ)} {p : String} {t : ℚ} {r : List ℕ}
    (hr : rangeDefE p = .ok r) (hlt : ∀ i ∈ r, i < polys.length) :
    ∃ row, fRowAt polys p t = .ok row ∧ row.length = r.length := by
  obtain ⟨vals, hm, hlen, -⟩ := mapE_ok_of_all (f := fun i => polyAt polys i t)
    (l := r) (fun i hi => ⟨polys.get ⟨i, hlt i hi⟩ t, by
      simp only [polyAt, List.get?_eq_get (hlt i hi)]⟩)
  refine ⟨vals, ?_, hlen⟩
  show (rangeDefE p >>= fun r' => mapE (fun i => polyAt polys i t) r') = _
  rw [hr, ok_bind, hm]

theorem patchLoop_ok (polys dpolys : List (ℚ → ℚ)) {tt : List ℚ}
    {n nt N : ℕ} (htt : tt.length = nt) (hn : n + nt ≤ N) :
    ∀ (ps : List String) (fd dfd : List (String × List Row)),
    DictLen N fd → DictLen N dfd →
    (∀ p ∈ ps, p ∈ fd.map Prod.fst) → (∀ p ∈ ps, p ∈ dfd.map Prod.fst) →
    (tt ≠ [] → ∀ p ∈ ps, ∃ r, rangeDefE p = .ok r ∧ r.length = 6 ∧
      ∀ i ∈ r, i < polys.length ∧ i < dpolys.length) →
    ∃ fd' dfd', patchLoop polys dpolys tt n nt ps fd dfd = .ok (fd', dfd') ∧
      DictLen N fd' ∧ DictLen N dfd' ∧
      fd'.map Prod.fst = fd.map Prod.fst ∧
      dfd'.map Prod.fst = dfd.map Prod.fst
  | [], fd, dfd, h1, h2, _, _, _ => ⟨fd, dfd, rfl, h1, h2, rfl, rfl⟩
  | p :: ps, fd, dfd, h1, h2, hkf, hkdf, hgood => by
    obtain ⟨fcur, hfcur⟩ :=
      dictGet_isSome_of_key (hkf p (List.mem_cons_self p ps))
    obtain ⟨dfcur, hdfcur⟩ :=
      dictGet_isSome_of_key (hkdf p (List.mem_cons_self p ps))
    have hfcN : fcur.length = N := h1 _ (dictGet_mem hfcur)
    have hdfcN : dfcur.length = N := h2 _ (dictGet_mem hdfcur)
    have hfr : ∃ frows, mapE (fRowAt polys p) tt = .ok frows ∧
        frows.length = nt ∧ ∀ r ∈ frows, r.length = 6 := by
      by_cases htne : tt = []
      · subst htne
        exact ⟨[], rfl, htt, by simp⟩
      · obtain ⟨r, hr, hr6, hlt⟩ :=
          hgood htne p (List.mem_cons_self p ps)
        obtain ⟨frows, hm, hlen, hmem⟩ := mapE_ok_of_all
          (f := fRowAt polys p) (l := tt) (fun t _ => by
            obtain ⟨row, hrow, -⟩ := fRowAt_ok hr (fun i hi => (hlt i hi).1)
            exact ⟨row, hrow⟩)
        refine ⟨frows, hm, hlen.trans htt, fun row hrow => ?_⟩
        obtain ⟨t, -, hfa⟩ := hmem row hrow
        obtain ⟨row', hrow', hlen'⟩ := fRowAt_ok hr (fun i hi => (hlt i hi).1)
        rw [hrow'] at hfa
        cases hfa
        exact hlen'.trans hr6
    obtain ⟨frows, hfrows, hfrlen, hfrw⟩ := hfr
    have hdfr : ∃ dfrows, mapE (fRowAt dpolys p) tt = .ok dfrows ∧
        dfrows.length = nt ∧ ∀ r ∈ dfrows, r.length = 6 := by
      by_cases htne : tt = []
      · subst htne
        exact ⟨[], rfl, htt, by simp⟩
      · obtain ⟨r, hr, hr6, hlt⟩ :=
          hgood htne p (List.mem_cons_self p ps)
        obtain ⟨dfrows, hm, hlen, hmem⟩ := mapE_ok_of_all
          (f := fRowAt dpolys p) (l := tt) (fun t _ => by
            obtain ⟨row, hrow, -⟩ := fRowAt_ok hr (fun i hi => (hlt i hi).2)
            exact ⟨row, hrow⟩)
        refine ⟨dfrows, hm, hlen.trans htt, fun row hrow => ?_⟩
        obtain ⟨t, -, hfa⟩ := hmem row hrow
        obtain ⟨row', hrow', hlen'⟩ := fRowAt_ok hr (fun i hi => (hlt i hi).2)
        rw [hrow'] at hfa
        cases hfa
        exact hlen'.trans hr6
    obtain ⟨dfrows, hdfrows, hdfrlen, hdfrw⟩ := hdfr
    have hset := setSliceE_ok_of fcur hfrlen (hfcN ▸ hn) hfrw
    have hdset := setSliceE_ok_of dfcur hdfrlen (hdfcN ▸ hn) hdfrw
    set fnew := fcur.take n ++ frows ++ fcur.drop (n + nt) with hfneq
    set dfnew := dfcur.take n ++ dfrows ++ dfcur.drop (n + nt) with hdfneq
    have hfnN : fnew.length = N := (setSliceE_ok_length hset).trans hfcN
    have hdfnN : dfnew.length = N := (setSliceE_ok_length hdset).trans hdfcN
    have h1' : DictLen N (dictUpdate fd p fnew) := fun q hq => by
      rcases dictUpdate_mem hq with rfl | hq
      · exact hfnN
      · exact h1 _ hq
    have h2' : DictLen N (dictUpdate dfd p dfnew) := fun q hq => by
      rcases dictUpdate_mem hq with rfl | hq
      · exact hdfnN
      · exact h2 _ hq
    obtain ⟨fd', dfd', hrec, o1, o2, o3, o4⟩ :=
      patchLoop_ok polys dpolys htt hn ps (dictUpdate fd p fnew)
        (dictUpdate dfd p dfnew)
        h1' h2'
        (fun q hq => (dictUpdate_keys fd p fnew).symm ▸
          hkf q (List.mem_cons_of_mem _ hq))
        (fun q hq => (dictUpdate_keys dfd p dfnew).symm ▸
          hkdf q (List.mem_cons_of_mem _ hq))
        (fun hne q hq => hgood hne q (List.mem_cons_of_mem _ hq))
    refine ⟨fd', dfd', ?_, o1, o2,
      o3.trans (dictUpdate_keys fd p fnew),
      o4.trans (dictUpdate_keys dfd p dfnew)⟩
    show (mapE (fRowAt polys p) tt >>= fun frows => _) = _
    rw [hfrows, ok_bind]
    show (liftKey (dictGet fd p) p >>= fun fcur => _) = _
    rw [hfcur]
    rw [show liftKey (some fcur) p = Except.ok fcur from rfl, ok_bind]
    show (setSliceE fcur n nt frows >>= fun fnew => _) = _
    rw [hset, ok_bind]
    show (mapE (fRowAt dpolys p) tt >>= fun dfrows => _) = _
    rw [hdfrows, ok_bind]
    show (liftKey (dictGet dfd p) p >>= fun dfcur => _) = _
    rw [hdfcur]
    rw [show liftKey (some dfcur) p = Except.ok dfcur from rfl, ok_bind]
    show (setSliceE dfcur n nt dfrows >>= fun dfnew => _) = _
    rw [hdset, ok_bind]
    exact hrec

/-- Well-formedness a contact-sequence segment owes its consumers: matching
row counts of the four parallel arrays, states wide enough to slice
(`x[:, :6]`, `x[:, 3:6]`, `x[:, -3:]`), and control rows of width `wc`. -/
def SegWF (wc : ℕ) (seg : Segment) : Prop :=
  seg.time_trajectory.length = seg.state_trajectory.length ∧
  seg.dot_state_trajectory.length = seg.state_trajectory.length ∧
  seg.control_trajectory.length = seg.state_trajectory.length ∧
  (∀ r ∈ seg.state_trajectory, 6 ≤ r.length) ∧
  (∀ r ∈ seg.dot_state_trajectory, 6 ≤ r.length) ∧
  (∀ r ∈ seg.control_trajectory, r.length = wc)

instance (wc : ℕ) (seg : Segment) : Decidable (SegWF wc seg) := by
  unfold SegWF
  infer_instance

theorem hgRow_length {mass : ℚ} {x : Row} (h : 6 ≤ x.length) :
    (hgRow mass x).length = 6 := by
  unfold hgRow
  simp only [List.length_append, List.length_map, List.length_take,
    List.length_drop]
  omega

theorem segLoop_char (pf : PolyFit) (mass : ℚ) {patches : List String}
    {t_traj : List ℚ} {N : ℕ}
    (hstd : ∀ p ∈ patches, p ∈ stdPatchNames) (hN : t_traj.length = N) :
    ∀ (segs : List Segment) (n : ℕ) (acc : PhiAcc),
    (∀ seg ∈ segs, SegWF 24 seg) →
    AccLen N acc →
    (∀ p ∈ patches, p ∈ acc.f.map Prod.fst) →
    (∀ p ∈ patches, p ∈ acc.df.map Prod.fst) →
    n + (segs.map (fun s => s.state_trajectory.length)).sum = N →
    ∃ out, segLoop pf mass t_traj patches segs n acc = .ok out ∧
      out.hg = acc.hg.take n ++
        (segs.map (fun s => s.state_trajectory.map (hgRow mass))).flatten ++
        acc.hg.drop N ∧
      out.dhg = acc.dhg.take n ++
        (segs.map
          (fun s => s.dot_state_trajectory.map (hgRow mass))).flatten ++
        acc.dhg.drop N
  | [], n, acc, _, hacc, _, _, hn => by
    have hnN : n = N := by simpa using hn
    subst hnN
    refine ⟨acc, rfl, ?_, ?_⟩
    · rw [List.take_of_length_le (le_of_eq hacc.2.2.2.2.1),
        List.drop_eq_nil_of_le (le_of_eq hacc.2.2.2.2.1)]
      simp
    · rw [List.take_of_length_le (le_of_eq hacc.2.2.2.2.2),
        List.drop_eq_nil_of_le (le_of_eq hacc.2.2.2.2.2)]
      simp
  | seg :: rest, n, acc, hwf, hacc, hkf, hkdf, hn => by
    obtain ⟨hwt, hwd, hwu, hwx6, hwdx6, hwu24⟩ :=
      hwf seg (List.mem_cons_self seg rest)
    have hsum : n + seg.state_trajectory.length +
        (rest.map (fun s => s.state_trajectory.length)).sum = N := by
      simpa [Nat.add_assoc] using hn
    have hnt : n + seg.state_trajectory.length ≤ N := by omega
    have htt : ((t_traj.drop n).take seg.state_trajectory.length).length =
        seg.state_trajectory.length := by
      simp only [List.length_take, List.length_drop, hN]
      omega
    have hcom := setSliceE_ok_of acc.com_vcom
      (by simp : (seg.state_trajectory.map (fun r => r.take 6)).length =
        seg.state_trajectory.length)
      (by rw [hacc.2.2.1]; exact hnt)
      (fun r hr => by
        obtain ⟨x0, hx0, rfl⟩ := List.mem_map.mp hr
        have := hwx6 x0 hx0
        simp only [List.length_take]
        omega)
    have hvcom := setSliceE_ok_of acc.vcom_acom
      (by simp [hwd] : (seg.dot_state_trajectory.map
          (fun r => r.take 6)).length = seg.state_trajectory.length)
      (by rw [hacc.2.2.2.1]; exact hnt)
      (fun r hr => by
        obtain ⟨x0, hx0, rfl⟩ := List.mem_map.mp hr
        have := hwdx6 x0 hx0
        simp only [List.length_take]
        omega)
    have hhg := setSliceE_ok_of acc.hg
      (by simp : (seg.state_trajectory.map (hgRow mass)).length =
        seg.state_trajectory.length)
      (by rw [hacc.2.2.2.2.1]; exact hnt)
      (fun r hr => by
        obtain ⟨x0, hx0, rfl⟩ := List.mem_map.mp hr
        exact hgRow_length (hwx6 x0 hx0))
    have hdhg := setSliceE_ok_of acc.dhg
      (by simp [hwd] : (seg.dot_state_trajectory.map (hgRow mass)).length =
        seg.state_trajectory.length)
      (by rw [hacc.2.2.2.2.2]; exact hnt)
      (fun r hr => by
        obtain ⟨x0, hx0, rfl⟩ := List.mem_map.mp hr
        exact hgRow_length (hwdx6 x0 hx0))
    have hgood : (t_traj.drop n).take seg.state_trajectory.length ≠ [] →
        ∀ p ∈ patches, ∃ r, rangeDefE p = .ok r ∧ r.length = 6 ∧
        ∀ i ∈ r, i < (pf.fit ((t_traj.drop n).take seg.state_trajectory.length)
            seg.control_trajectory).1.length ∧
          i < (pf.fit ((t_traj.drop n).take seg.state_trajectory.length)
            seg.control_trajectory).2.length := by
      intro hne p hp
      have hu : (seg.control_trajectory.head?.getD []).length = 24 := by
        cases hc : seg.control_trajectory with
        | nil =>
          rw [hc] at hwu
          have : seg.state_trajectory.length = 0 := by simpa using hwu.symm
          rw [this] at hne
          simp at hne
        | cons u0 us =>
          simp only [List.head?_cons, Option.getD_some]
          exact hwu24 u0 (hc ▸ List.mem_cons_self u0 us)
      have hp1 := (pf.fit_len_fst
        ((t_traj.drop n).take seg.state_trajectory.length)
        seg.control_trajectory).trans hu
      have hp2 := (pf.fit_len_snd
        ((t_traj.drop n).take seg.state_trajectory.length)
        seg.control_trajectory).trans hu
      have h24 : ∀ r : List ℕ, (∀ i ∈ r, i < 24) →
          ∃ r', rangeDefE p = .ok r' → True := fun _ _ => ⟨[], fun _ => trivial⟩
      have hmem := hstd p hp
      unfold stdPatchNames at hmem
      rcases List.mem_cons.mp hmem with rfl | hmem
      · exact ⟨List.range' 0 6, rfl, rfl, fun i hi =>
          ⟨by rw [hp1]; revert hi; revert i; decide,
           by rw [hp2]; revert hi; revert i; decide⟩⟩
      rcases List.mem_cons.mp hmem with rfl | hmem
      · exact ⟨List.range' 6 6, rfl, rfl, fun i hi =>
          ⟨by rw [hp1]; revert hi; revert i; decide,
           by rw [hp2]; revert hi; revert i; decide⟩⟩
      rcases List.mem_cons.mp hmem with rfl | hmem
      · exact ⟨List.range' 12 6, rfl, rfl, fun i hi =>
          ⟨by rw [hp1]; revert hi; revert i; decide,
           by rw [hp2]; revert hi; revert i; decide⟩⟩
      rcases List.mem_cons.mp hmem with rfl | hmem
      · exact ⟨List.range' 18 6, rfl, rfl, fun i hi =>
          ⟨by rw [hp1]; revert hi; revert i; decide,
           by rw [hp2]; revert hi; revert i; decide⟩⟩
      · simp at hmem
    obtain ⟨fd', dfd', hploop, hd1, hd2, hk1, hk2⟩ :=
      patchLoop_ok
        (pf.fit ((t_traj.drop n).take seg.state_trajectory.length)
          seg.control_trajectory).1
        (pf.fit ((t_traj.drop n).take seg.state_trajectory.length)
          seg.control_trajectory).2
        htt hnt patches acc.f acc.df hacc.1 hacc.2.1 hkf hkdf hgood
    have hacc' : AccLen N
        { f := fd', df := dfd',
          com_vcom := acc.com_vcom.take n ++
            seg.state_trajectory.map (fun r => r.take 6) ++
            acc.com_vcom.drop (n + seg.state_trajectory.length),
          vcom_acom := acc.vcom_acom.take n ++
            seg.dot_state_trajectory.map (fun r => r.take 6) ++
            acc.vcom_acom.drop (n + seg.state_trajectory.length),
          hg := acc.hg.take n ++ seg.state_trajectory.map (hgRow mass) ++
            acc.hg.drop (n + seg.state_trajectory.length),
          dhg := acc.dhg.take n ++
            seg.dot_state_trajectory.map (hgRow mass) ++
            acc.dhg.drop (n + seg.state_trajectory.length) } :=
      ⟨hd1, hd2,
        (setSliceE_ok_length hcom).trans hacc.2.2.1,
        (setSliceE_ok_length hvcom).trans hacc.2.2.2.1,
        (setSliceE_ok_length hhg).trans hacc.2.2.2.2.1,
        (setSliceE_ok_length hdhg).trans hacc.2.2.2.2.2⟩
    obtain ⟨out, hrec, hhg_out, hdhg_out⟩ :=
      segLoop_char pf mass hstd hN rest (n + seg.state_trajectory.length) _
        (fun s hs => hwf s (List.mem_cons_of_mem _ hs)) hacc'
        (fun p hp => by
          show p ∈ fd'.map Prod.fst
          rw [hk1]
          exact hkf p hp)
        (fun p hp => by
          show p ∈ dfd'.map Prod.fst
          rw [hk2]
          exact hkdf p hp)
        hsum
    refine ⟨out, ?_, ?_, ?_⟩
    · show (setSliceE acc.com_vcom n seg.state_trajectory.length
        (seg.state_trajectory.map (fun r => r.take 6)) >>= fun com => _) = _
      rw [hcom, ok_bind]
      show (setSliceE acc.vcom_acom n seg.state_trajectory.length
        (seg.dot_state_trajectory.map (fun r => r.take 6)) >>=
          fun vcom => _) = _
      rw [hvcom, ok_bind]
      show (setSliceE acc.hg n seg.state_trajectory.length
        (seg.state_trajectory.map (hgRow mass)) >>= fun hg => _) = _
      rw [hhg, ok_bind]
      show (setSliceE acc.dhg n seg.state_trajectory.length
        (seg.dot_state_trajectory.map (hgRow mass)) >>= fun dhg => _) = _
      rw [hdhg, ok_bind]
      show (patchLoop _ _ _ n seg.state_trajectory.length patches acc.f
        acc.df >>= fun fdicts => _) = _
      rw [hploop, ok_bind]
      exact hrec
    · rw [hhg_out]
      have htkn : (acc.hg.take n).length = n := by
        simp only [List.length_take]
        rw [hacc.2.2.2.2.1]
        omega
      have hchl : (acc.hg.take n ++
          seg.state_trajectory.map (hgRow mass)).length =
          n + seg.state_trajectory.length := by
        simp [htkn]
      have e1 : (acc.hg.take n ++ seg.state_trajectory.map (hgRow mass) ++
          acc.hg.drop (n + seg.state_trajectory.length)).take
            (n + seg.state_trajectory.length) =
          acc.hg.take n ++ seg.state_trajectory.map (hgRow mass) := by
        rw [← hchl, List.take_left]
      have e2 : (acc.hg.take n ++ seg.state_trajectory.map (hgRow mass) ++
          acc.hg.drop (n + seg.state_trajectory.length)).drop N = [] :=
        List.drop_eq_nil_of_le
          (le_of_eq ((setSliceE_ok_length hhg).trans hacc.2.2.2.2.1))
      have e3 : acc.hg.drop N = [] :=
        List.drop_eq_nil_of_le (le_of_eq hacc.2.2.2.2.1)
      show (acc.hg.take n ++ seg.state_trajectory.map (hgRow mass) ++
          acc.hg.drop (n + seg.state_trajectory.length)).take
            (n + seg.state_trajectory.length) ++
          (rest.map
            (fun s => s.state_trajectory.map (hgRow mass))).flatten ++
          (acc.hg.take n ++ seg.state_trajectory.map (hgRow mass) ++
          acc.hg.drop (n + seg.state_trajectory.length)).drop N =
          acc.hg.take n ++
          (((seg :: rest).map
            (fun s => s.state_trajectory.map (hgRow mass))).flatten) ++
          acc.hg.drop N
      rw [e1, e2, e3]
      simp [List.append_assoc]
    · rw [hdhg_out]
      have htkn : (acc.dhg.take n).length = n := by
        simp only [List.length_take]
        rw [hacc.2.2.2.2.2]
        omega
      have hchl : (acc.dhg.take n ++
          seg.dot_state_trajectory.map (hgRow mass)).length =
          n + seg.state_trajectory.length := by
        simp [htkn, hwd]
      have e1 : (acc.dhg.take n ++
          seg.dot_state_trajectory.map (hgRow mass) ++
          acc.dhg.drop (n + seg.state_trajectory.length)).take
            (n + seg.state_trajectory.length) =
          acc.dhg.take n ++ seg.dot_state_trajectory.map (hgRow mass) := by
        rw [← hchl, List.take_left]
      have e2 : (acc.dhg.take n ++
          seg.dot_state_trajectory.map (hgRow mass) ++
          acc.dhg.drop (n + seg.state_trajectory.length)).drop N = [] :=
        List.drop_eq_nil_of_le
          (le_of_eq ((setSliceE_ok_length hdhg).trans hacc.2.2.2.2.2))
      have e3 : acc.dhg.drop N = [] :=
        List.drop_eq_nil_of_le (le_of_eq hacc.2.2.2.2.2)
      show (acc.dhg.take n ++ seg.dot_state_trajectory.map (hgRow mass) ++
          acc.dhg.drop (n + seg.state_trajectory.length)).take
            (n + seg.state_trajectory.length) ++
          (rest.map
            (fun s => s.dot_state_trajectory.map (hgRow mass))).flatten ++
          (acc.dhg.take n ++ seg.dot_state_trajectory.map (hgRow mass) ++
          acc.dhg.drop (n + seg.state_trajectory.length)).drop N =
          acc.dhg.take n ++
          (((seg :: rest).map
            (fun s => s.dot_state_trajectory.map (hgRow mass))).flatten) ++
          acc.dhg.drop N
      rw [e1, e2, e3]
      simp [List.append_assoc]

theorem initPhi_keys (patches : List String) (N : ℕ) :
    (initPhi patches N).f.map Prod.fst = patches ∧
    (initPhi patches N).df.map Prod.fst = patches := by
  constructor <;>
  · show (patches.map (fun p => (p, List.replicate N zeroRow))).map
      Prod.fst = patches
    rw [List.map_map]
    exact (List.map_congr_left (fun a _ => rfl)).trans (List.map_id patches)

/-- Claim C4: on well-formed input (and the standard patch set), the
angular-momentum array built by `createCentroidalPhi` consists, segment by
segment and sample by sample, of the rows `hgRow mass x`; and each such row
has columns 0-2 equal to `mass` times the state's columns 3-5 and columns 3-5
copied from the state's last 3 columns — likewise for the rate array from the
state derivative. -/
theorem claim_C4_angular_momentum_scaling (pf : PolyFit) (mass : ℚ)
    (patches : List String) (cs : ContactSequence)
    (hwf : ∀ seg ∈ cs.ms_interval_data.dropLast, SegWF 24 seg)
    (hstd : ∀ p ∈ patches, p ∈ stdPatchNames) :
    (∃ acc, preDedupAcc pf mass patches cs = .ok acc ∧
      acc.hg = ((cs.ms_interval_data.dropLast).map
        (fun s => s.state_trajectory.map (hgRow mass))).flatten ∧
      acc.dhg = ((cs.ms_interval_data.dropLast).map
        (fun s => s.dot_state_trajectory.map (hgRow mass))).flatten) ∧
    (∀ x : Row, 6 ≤ x.length →
      (hgRow mass x).take 3 =
        ((x.drop 3).take 3).map (fun v => mass * v) ∧
      (hgRow mass x).drop 3 = x.drop (x.length - 3)) := by
  constructor
  · set segs := cs.ms_interval_data.dropLast with hsegs
    set t_traj := concatTimeline segs with ht
    have hsum : 0 + (segs.map (fun s => s.state_trajectory.length)).sum =
        t_traj.length := by
      rw [ht]
      unfold concatTimeline
      rw [List.length_flatten, List.map_map]
      rw [show List.map (List.length ∘ Segment.time_trajectory) segs =
          List.map (fun s => s.state_trajectory.length) segs from
        List.map_congr_left (fun s hs => (hwf s hs).1)]
      omega
    obtain ⟨out, hout, h1, h2⟩ :=
      segLoop_char pf mass hstd rfl segs 0
        (initPhi patches t_traj.length) hwf
        (initPhi_len patches t_traj.length)
        (fun p hp => ((initPhi_keys patches t_traj.length).1).symm ▸ hp)
        (fun p hp => ((initPhi_keys patches t_traj.length).2).symm ▸ hp)
        hsum
    refine ⟨out, hout, ?_, ?_⟩
    · rw [h1]
      rw [show (initPhi patches t_traj.length).hg =
          List.replicate t_traj.length zeroRow from rfl]
      simp
    · rw [h2]
      rw [show (initPhi patches t_traj.length).dhg =
          List.replicate t_traj.length zeroRow from rfl]
      simp
  · intro x hx
    have key : ∀ A B : Row, A.length = 3 →
        (A ++ B).take 3 = A ∧ (A ++ B).drop 3 = B := by
      intro A B hA
      constructor
      · rw [← hA, List.take_left]
      · rw [← hA, List.drop_left]
    have hlenA : (((x.drop 3).take 3).map
        (fun v => mass * v)).length = 3 := by
      simp only [List.length_map, List.length_take, List.length_drop]
      omega
    exact ⟨(key _ _ hlenA).1, (key _ _ hlenA).2⟩

theorem claim_C4_witness :
    (∀ seg ∈ scnCS.ms_interval_data.dropLast, SegWF 24 seg) ∧
    (∃ acc, preDedupAcc trivialFit 2 stdPatchNames scnCS = .ok acc ∧
      acc.hg = ((scnCS.ms_interval_data.dropLast).map
        (fun s => s.state_trajectory.map (hgRow 2))).flatten ∧
      acc.dhg = ((scnCS.ms_interval_data.dropLast).map
        (fun s => s.dot_state_trajectory.map (hgRow 2))).flatten) :=
  ⟨by with_unfolding_all decide,
   (claim_C4_angular_momentum_scaling trivialFit 2 stdPatchNames scnCS
     (by with_unfolding_all decide) (by decide)).1⟩

/-! ### The swing-trajectory builder -/

theorem dictGet_none_forall {α : Type} :
    ∀ {d : List (String × α)} {k : String},
    dictGet d k = none → ∀ p ∈ d, p.1 ≠ k
  | [], _, _, _, h => by simp at h
  | (k0, v0) :: d, k, h, p, hp => by
    by_cases hk : k0 = k
    · subst hk
      simp [dictGet] at h
    · rw [show dictGet ((k0, v0) :: d) k = dictGet d k by
        simp [dictGet, hk]] at h
      rcases List.mem_cons.mp hp with rfl | hp
      · exact hk
      · exact dictGet_none_forall h p hp

theorem dictUpdate_idem {α : Type} (d : List (String × α)) (k : String)
    (v v' : α) : dictUpdate (dictUpdate d k v) k v' = dictUpdate d k v' := by
  unfold dictUpdate
  rw [List.map_map]
  refine List.map_congr_left (fun p _ => ?_)
  by_cases hp : p.1 = k <;> simp [hp]

/-- Re-setting the same key twice keeps only the last value: the repeated
per-iteration spline stores collapse to the final store. -/
theorem dictSet_dictSet {α : Type} (d : List (String × α)) (k : String)
    (v v' : α) : dictSet (dictSet d k v) k v' = dictSet d k v' := by
  unfold dictSet
  by_cases ho : (dictGet d k).isSome
  · obtain ⟨wv, hw⟩ := Option.isSome_iff_exists.mp ho
    simp only [ho, if_true]
    have h1 : dictGet (dictUpdate d k v) k = some v := dictUpdate_get_self hw
    simp only [h1, Option.isSome_some, if_true]
    exact dictUpdate_idem d k v v'
  · have hnone : dictGet d k = none := by
      cases hd : dictGet d k
      · rfl
      · rw [hd] at ho
        simp at ho
    simp only [ho, if_false, Bool.false_eq_true]
    have h1 : dictGet (d ++ [(k, v)]) k = some v := dictGet_append_right hnone
    simp only [h1, Option.isSome_some, if_true]
    unfold dictUpdate
    rw [List.map_append]
    have hmapd : d.map (fun p => if p.1 = k then (k, v') else p) = d := by
      refine (List.map_congr_left (fun p hp => ?_)).trans (List.map_id d)
      simp [dictGet_none_forall hnone p hp]
    rw [hmapd]
    simp

/-- The per-iteration spline store of the inner sampling loop collapses to a
single store of the spline built from the arrays as filled at the last
iteration. -/
theorem eeInner_once_relation {D : Type} (eng : Engine D) (rm : RModel)
    (ab : List ℚ) (patch fname : String) :
    ∀ (xs : List Row) (rd : D) (p m : List Row) (i : ℕ)
      (spl : List (String × Spline)), xs ≠ [] →
    eeInnerLoop eng rm ab patch fname xs rd p m i spl =
      ((eeInnerOnce eng rm fname xs rd p m i).1,
       (eeInnerOnce eng rm fname xs rd p m i).2.1,
       (eeInnerOnce eng rm fname xs rd p m i).2.2,
       dictSet spl patch
         ⟨ab, (eeInnerOnce eng rm fname xs rd p m i).2.1,
           (eeInnerOnce eng rm fname xs rd p m i).2.2⟩)
  | [], _, _, _, _, _, hne => absurd rfl hne
  | x :: xs, rd, p, m, i, spl, _ => by
    by_cases hxs : xs = []
    · subst hxs
      rfl
    · simp only [eeInnerLoop, eeInnerOnce]
      rw [eeInner_once_relation eng rm ab patch fname xs _ _ _ _ _ hxs,
        dictSet_dictSet]

theorem eeOuter_once_relation {D : Type} (eng : Engine D) (rm : RModel)
    (ab : List ℚ) (xs : List Row) (N : ℕ) (hne : xs ≠ []) :
    ∀ (ps : List (String × String)) (rd : D)
      (spl : List (String × Spline)),
    eeOuterLoop eng rm ab xs N ps rd spl =
      eeOuterOnce eng rm ab xs N ps rd spl := by
  intro ps
  induction ps with
  | nil =>
    intro rd spl
    rfl
  | cons pr ps ih =>
    intro rd spl
    cases pr with
    | mk patch fname =>
      show eeOuterLoop eng rm ab xs N ((patch, fname) :: ps) rd spl = _
      simp only [eeOuterLoop, eeOuterOnce]
      rw [eeInner_once_relation eng rm ab patch fname xs rd _ _ 0 spl hne]
      exact ih _ _

/-- Claim C9 (amended): for a nonempty state trajectory, `createEESplines`
— which rebuilds each patch's spline on every inner iteration — produces the
same final state as the variant that builds each spline exactly once, after
the sampling loop, from the fully populated arrays. -/
theorem claim_C9_respline_equivalence {D : Type} (eng : Engine D)
    (w : World D) (xs : List Row) (dt : ℚ) (hne : xs ≠ []) :
    createEESplinesRun eng w xs dt = createEESplinesOnce eng w xs dt := by
  simp only [createEESplinesRun, createEESplinesOnce]
  rw [eeOuter_once_relation eng w.rmodel (eeAbscissa dt xs.length) xs
    xs.length hne]

/-- A minimal engine over trivial robot data. -/
def unitEngine : Engine Unit where
  fk := fun _ _ _ _ => ()
  updFrame := fun _ _ _ => ([0, 0, 0], ())
  frameVel := fun _ _ _ => [0, 0, 0]
  getFrameId := fun _ _ => 0
  crba00 := fun _ _ _ => (1, ())
  neutral := fun _ => []

/-- A one-patch wrapper state over trivial robot data. -/
def unitWorld : World Unit where
  rmodel := ⟨1, 1⟩
  rdata := ()
  cs := ⟨[]⟩
  ee_map := [("P", "f")]
  ee_splines := none
  phi_c := emptyCentroidalPhi

/-- Claim C9's counterexample: on the empty state trajectory the original
leaves the spline map empty, while the once-after-the-loop variant stores a
spline built from the empty arrays — the two are not equivalent at `N = 0`. -/
theorem claim_C9_counterexample :
    createEESplinesRun unitEngine unitWorld [] 1 ≠
      createEESplinesOnce unitEngine unitWorld [] 1 := by
  with_unfolding_all decide

theorem claim_C9_witness :
    ([[0]] : List Row) ≠ [] ∧
    createEESplinesRun unitEngine unitWorld [[0]] 1 =
      createEESplinesOnce unitEngine unitWorld [[0]] 1 :=
  ⟨by decide,
   claim_C9_respline_equivalence unitEngine unitWorld [[0]] 1 (by decide)⟩

/-- Claim C10: on an empty state trajectory `createEESplines` returns
normally with an empty timestamp axis, stores an end-effector spline map with
no entries, leaves the robot data untouched, and its result does not depend
on the dynamics engine at all (forward kinematics is never invoked). -/
theorem claim_C10_empty_trajectory {D : Type} (eng eng' : Engine D)
    (w : World D) (dt : ℚ) :
    createEESplinesRun eng w [] dt = { w with ee_splines := some [] } ∧
    eeAbscissa dt 0 = [] ∧
    createEESplinesRun eng w [] dt = createEESplinesRun eng' w [] dt := by
  have hloop : ∀ (e : Engine D) (rm : RModel) (ab : List ℚ)
      (ps : List (String × String)) (rd : D)
      (spl : List (String × Spline)),
      eeOuterLoop e rm ab [] 0 ps rd spl = (rd, spl) := by
    intro e rm ab ps
    induction ps with
    | nil =>
      intro rd spl
      rfl
    | cons pr ps ih =>
      intro rd spl
      cases pr with
      | mk patch fname => exact ih rd spl
  refine ⟨?_, rfl, ?_⟩
  · simp only [createEESplinesRun, List.length_nil]
    rw [hloop eng w.rmodel (eeAbscissa dt 0) w.ee_map w.rdata []]
  · simp only [createEESplinesRun, List.length_nil]
    rw [hloop eng w.rmodel (eeAbscissa dt 0) w.ee_map w.rdata [],
      hloop eng' w.rmodel (eeAbscissa dt 0) w.ee_map w.rdata []]

/-! ### Frame of the two operations -/

/-- An engine over counting robot data: forward kinematics records its result
into the robot data, as the collaborator contract describes (the data holds
the updated frame placements). -/
def countingEngine : Engine ℕ where
  fk := fun _ d _ _ => d + 1
  updFrame := fun _ d _ => ([0, 0, 0], d)
  frameVel := fun _ _ _ => [0, 0, 0]
  getFrameId := fun _ _ => 0
  crba00 := fun _ d _ => (1, d)
  neutral := fun _ => []

/-- A one-patch wrapper state whose robot data starts at 0. -/
def countingWorld : World ℕ where
  rmodel := ⟨1, 1⟩
  rdata := 0
  cs := ⟨[]⟩
  ee_map := [("P", "f")]
  ee_splines := none
  phi_c := emptyCentroidalPhi

/-- Claim C6's counterexample: the robot data *is* mutated — one sample and
one patch suffice for the forward-kinematics call to leave the robot data
changed. -/
theorem claim_C6_counterexample :
    (createEESplinesRun countingEngine countingWorld [[0, 0]] 1).rdata ≠
      countingWorld.rdata := by
  with_unfolding_all decide

/-- Claim C6 (amended): the two operations have no effect beyond their result
containers and the robot-data workspace: `createEESplines` can change only
`ee_splines` and the robot data, `createCentroidalPhi` only `phi_c` and the
robot data; the contact sequence, end-effector map and robot model are never
touched. -/
theorem claim_C6_frame {D : Type} (eng : Engine D) (pf : PolyFit)
    (w : World D) (xs : List Row) (dt : ℚ) :
    ((createEESplinesRun eng w xs dt).rmodel = w.rmodel ∧
     (createEESplinesRun eng w xs dt).cs = w.cs ∧
     (createEESplinesRun eng w xs dt).ee_map = w.ee_map ∧
     (createEESplinesRun eng w xs dt).phi_c = w.phi_c) ∧
    ((createCentroidalPhiRun eng pf w).1.rmodel = w.rmodel ∧
     (createCentroidalPhiRun eng pf w).1.cs = w.cs ∧
     (createCentroidalPhiRun eng pf w).1.ee_map = w.ee_map ∧
     (createCentroidalPhiRun eng pf w).1.ee_splines = w.ee_splines) := by
  constructor
  · exact ⟨rfl, rfl, rfl, rfl⟩
  · simp only [createCentroidalPhiRun]
    split
    · exact ⟨rfl, rfl, rfl, rfl⟩
    · exact ⟨rfl, rfl, rfl, rfl⟩

/-! ### Error paths of the segment pass -/

theorem error_bind {α β : Type} (e : CErr) (f : α → Except CErr β) :
    (Except.error e >>= f : Except CErr β) = .error e := rfl

theorem rangeDefE_error {p : String} (hp : p ∉ stdPatchNames) :
    rangeDefE p = .error (.keyError p) := by
  have h1 : p ≠ "RF_patch" := by
    intro h
    exact hp (h ▸ by decide)
  have h2 : p ≠ "LF_patch" := by
    intro h
    exact hp (h ▸ by decide)
  have h3 : p ≠ "RH_patch" := by
    intro h
    exact hp (h ▸ by decide)
  have h4 : p ≠ "LH_patch" := by
    intro h
    exact hp (h ▸ by decide)
  have hlookup : List.lookup p range_def = none := by
    simp [range_def, List.lookup, beq_eq_false_iff_ne.mpr h1,
      beq_eq_false_iff_ne.mpr h2, beq_eq_false_iff_ne.mpr h3,
      beq_eq_false_iff_ne.mpr h4]
  unfold rangeDefE
  rw [hlookup]

theorem polyAt_error {polys : List (ℚ → ℚ)} {i : ℕ} (t : ℚ)
    (h : polys.length ≤ i) : polyAt polys i t = .error (.indexError i) := by
  simp only [polyAt]
  rw [List.get?_eq_none.mpr h]

theorem mapE_first_error {α β : Type} {f : α → Except CErr β} :
    ∀ {l : List α}, (∃ a ∈ l, ∃ e, f a = .error e) →
    ∃ a ∈ l, ∃ e, f a = .error e ∧ mapE f l = .error e
  | [], h => by simp at h
  | a :: l, h => by
    cases hfa : f a with
    | error e =>
      refine ⟨a, List.mem_cons_self a l, e, hfa, ?_⟩
      show (f a >>= fun b => mapE f l >>= fun bs => pure (b :: bs)) = _
      rw [hfa, error_bind]
    | ok b =>
      have hl : ∃ a' ∈ l, ∃ e, f a' = .error e := by
        obtain ⟨a', ha', e, he⟩ := h
        rcases List.mem_cons.mp ha' with rfl | ha'
        · rw [hfa] at he
          cases he
        · exact ⟨a', ha', e, he⟩
      obtain ⟨a', ha', e, he, hm⟩ := mapE_first_error hl
      refine ⟨a', List.mem_cons_of_mem _ ha', e, he, ?_⟩
      show (f a >>= fun b => mapE f l >>= fun bs => pure (b :: bs)) = _
      rw [hfa, ok_bind, hm, error_bind]

theorem fRowAt_err_idx {polys : List (ℚ → ℚ)} {p : String} {r : List ℕ}
    (t : ℚ) (hr : rangeDefE p = .ok r) (hex : ∃ i ∈ r, polys.length ≤ i) :
    ∃ j, polys.length ≤ j ∧ fRowAt polys p t = .error (.indexError j) := by
  obtain ⟨i, hi, e, he, hm⟩ := mapE_first_error
    (f := fun i => polyAt polys i t)
    (by
      obtain ⟨i, hi, hle⟩ := hex
      exact ⟨i, hi, .indexError i, polyAt_error t hle⟩)
  have hii : polys.length ≤ i := by
    by_contra hlt
    rw [show polyAt polys i t = .ok (polys.get ⟨i, by omega⟩ t) by
      simp only [polyAt, List.get?_eq_get (show i < polys.length by omega)]]
      at he
    cases he
  rw [polyAt_error t hii] at he
  cases he
  refine ⟨i, hii, ?_⟩
  show (rangeDefE p >>= fun r' => mapE (fun i => polyAt polys i t) r') = _
  rw [hr, ok_bind, hm]

/-- A head patch outside the fixed name set makes the patch loop raise its
key error (the range lookup happens inside the per-sample comprehension, so a
nonempty time window is needed). -/
theorem patchLoop_bad_head {polys dpolys : List (ℚ → ℚ)} {t : ℚ}
    {tt' : List ℚ} {n nt : ℕ} {ps : List String}
    {fd dfd : List (String × List Row)} {p : String}
    (hp : p ∉ stdPatchNames) :
    patchLoop polys dpolys (t :: tt') n nt (p :: ps) fd dfd =
      .error (.keyError p) := by
  have h1 : fRowAt polys p t = .error (.keyError p) := by
    show (rangeDefE p >>= fun r => mapE (fun i => polyAt polys i t) r) = _
    rw [rangeDefE_error hp, error_bind]
  have h2 : mapE (fRowAt polys p) (t :: tt') = .error (.keyError p) := by
    show (fRowAt polys p t >>= fun b =>
      mapE (fRowAt polys p) tt' >>= fun bs => pure (b :: bs)) = _
    rw [h1, error_bind]
  show (mapE (fRowAt polys p) (t :: tt') >>= _) = _
  rw [h2, error_bind]

/-- A single in-range patch step of the patch loop succeeds and leaves a
same-keys, same-row-count pair of dicts. -/
theorem patchStep_ok {polys dpolys : List (ℚ → ℚ)} {tt : List ℚ}
    {n nt N : ℕ} {p : String} {fd dfd : List (String × List Row)}
    (htt : tt.length = nt) (hn : n + nt ≤ N)
    (h1 : DictLen N fd) (h2 : DictLen N dfd)
    (hkf : p ∈ fd.map Prod.fst) (hkdf : p ∈ dfd.map Prod.fst)
    (hgoodp : tt ≠ [] → ∃ r, rangeDefE p = .ok r ∧ r.length = 6 ∧
      ∀ i ∈ r, i < polys.length ∧ i < dpolys.length) :
    ∀ ps, ∃ fnew dfnew,
      patchLoop polys dpolys tt n nt (p :: ps) fd dfd =
        patchLoop polys dpolys tt n nt ps (dictUpdate fd p fnew)
          (dictUpdate dfd p dfnew) ∧
      fnew.length = N ∧ dfnew.length = N := by
  intro ps
  obtain ⟨fcur, hfcur⟩ := dictGet_isSome_of_key hkf
  obtain ⟨dfcur, hdfcur⟩ := dictGet_isSome_of_key hkdf
  have hfcN : fcur.length = N := h1 _ (dictGet_mem hfcur)
  have hdfcN : dfcur.length = N := h2 _ (dictGet_mem hdfcur)
  have hfr : ∃ frows, mapE (fRowAt polys p) tt = .ok frows ∧
      frows.length = nt ∧ ∀ r ∈ frows, r.length = 6 := by
    by_cases htne : tt = []
    · subst htne
      exact ⟨[], rfl, htt, by simp⟩
    · obtain ⟨r, hr, hr6, hlt⟩ := hgoodp htne
      obtain ⟨frows, hm, hlen, hmem⟩ := mapE_ok_of_all
        (f := fRowAt polys p) (l := tt) (fun t _ => by
          obtain ⟨row, hrow, -⟩ := fRowAt_ok hr (fun i hi => (hlt i hi).1)
          exact ⟨row, hrow⟩)
      refine ⟨frows, hm, hlen.trans htt, fun row hrow => ?_⟩
      obtain ⟨t, -, hfa⟩ := hmem row hrow
      obtain ⟨row', hrow', hlen'⟩ := fRowAt_ok hr (fun i hi => (hlt i hi).1)
      rw [hrow'] at hfa
      cases hfa
      exact hlen'.trans hr6
  obtain ⟨frows, hfrows, hfrlen, hfrw⟩ := hfr
  have hdfr : ∃ dfrows, mapE (fRowAt dpolys p) tt = .ok dfrows ∧
      dfrows.length = nt ∧ ∀ r ∈ dfrows, r.length = 6 := by
    by_cases htne : tt = []
    · subst htne
      exact ⟨[], rfl, htt, by simp⟩
    · obtain ⟨r, hr, hr6, hlt⟩ := hgoodp htne
      obtain ⟨dfrows, hm, hlen, hmem⟩ := mapE_ok_of_all
        (f := fRowAt dpolys p) (l := tt) (fun t _ => by
          obtain ⟨row, hrow, -⟩ := fRowAt_ok hr (fun i hi => (hlt i hi).2)
          exact ⟨row, hrow⟩)
      refine ⟨dfrows, hm, hlen.trans htt, fun row hrow => ?_⟩
      obtain ⟨t, -, hfa⟩ := hmem row hrow
      obtain ⟨row', hrow', hlen'⟩ := fRowAt_ok hr (fun i hi => (hlt i hi).2)
      rw [hrow'] at hfa
      cases hfa
      exact hlen'.trans hr6
  obtain ⟨dfrows, hdfrows, hdfrlen, hdfrw⟩ := hdfr
  have hset := setSliceE_ok_of fcur hfrlen (hfcN ▸ hn) hfrw
  have hdset := setSliceE_ok_of dfcur hdfrlen (hdfcN ▸ hn) hdfrw
  refine ⟨fcur.take n ++ frows ++ fcur.drop (n + nt),
    dfcur.take n ++ dfrows ++ dfcur.drop (n + nt), ?_,
    (setSliceE_ok_length hset).trans hfcN,
    (setSliceE_ok_length hdset).trans hdfcN⟩
  show (mapE (fRowAt polys p) tt >>= fun frows => _) = _
  rw [hfrows, ok_bind]
  show (liftKey (dictGet fd p) p >>= fun fcur => _) = _
  rw [hfcur]
  rw [show liftKey (some fcur) p = Except.ok fcur from rfl, ok_bind]
  show (setSliceE fcur n nt frows >>= fun fnew => _) = _
  rw [hset, ok_bind]
  show (mapE (fRowAt dpolys p) tt >>= fun dfrows => _) = _
  rw [hdfrows, ok_bind]
  show (liftKey (dictGet dfd p) p >>= fun dfcur => _) = _
  rw [hdfcur]
  rw [show liftKey (some dfcur) p = Except.ok dfcur from rfl, ok_bind]
  show (setSliceE dfcur n nt dfrows >>= fun dfnew => _) = _
  rw [hdset, ok_bind]

theorem std_range_facts (p : String) (hp : p ∈ stdPatchNames) :
    ∃ r, rangeDefE p = .ok r ∧ r.length = 6 ∧ ∀ i ∈ r, i < 24 := by
  unfold stdPatchNames at hp
  rcases List.mem_cons.mp hp with rfl | hp
  · exact ⟨List.range' 0 6, rfl, rfl, by decide⟩
  rcases List.mem_cons.mp hp with rfl | hp
  · exact ⟨List.range' 6 6, rfl, rfl, by decide⟩
  rcases List.mem_cons.mp hp with rfl | hp
  · exact ⟨List.range' 12 6, rfl, rfl, by decide⟩
  rcases List.mem_cons.mp hp with rfl | hp
  · exact ⟨List.range' 18 6, rfl, rfl, by decide⟩
  · simp at hp

/-- With a nonempty time window and at least 24 fitted polynomials, a patch
name outside the fixed set surfaces as the loop's key error (the first such
patch in iteration order). -/
theorem patchLoop_err_key {polys dpolys : List (ℚ → ℚ)} {t : ℚ}
    {tt' : List ℚ} {n nt N : ℕ}
    (htt : (t :: tt').length = nt) (hn : n + nt ≤ N)
    (hp24f : 24 ≤ polys.length) (hp24d : 24 ≤ dpolys.length) :
    ∀ (ps : List String) (fd dfd : List (String × List Row)),
    DictLen N fd → DictLen N dfd →
    (∀ p ∈ ps, p ∈ fd.map Prod.fst) → (∀ p ∈ ps, p ∈ dfd.map Prod.fst) →
    (∃ p ∈ ps, p ∉ stdPatchNames) →
    ∃ q, q ∉ stdPatchNames ∧
      patchLoop polys dpolys (t :: tt') n nt ps fd dfd =
        .error (.keyError q)
  | [], _, _, _, _, _, _, hbad => by simp at hbad
  | p :: ps, fd, dfd, h1, h2, hkf, hkdf, hbad => by
    by_cases hstd : p ∈ stdPatchNames
    · obtain ⟨r, hr, hr6, hlt⟩ := std_range_facts p hstd
      obtain ⟨fnew, dfnew, hstep, hfN, hdfN⟩ := patchStep_ok htt hn h1 h2
        (hkf p (List.mem_cons_self p ps)) (hkdf p (List.mem_cons_self p ps))
        (fun _ => ⟨r, hr, hr6, fun i hi =>
          ⟨lt_of_lt_of_le (hlt i hi) hp24f,
           lt_of_lt_of_le (hlt i hi) hp24d⟩⟩) ps
      rw [hstep]
      have hbad' : ∃ q ∈ ps, q ∉ stdPatchNames := by
        obtain ⟨q, hq, hqs⟩ := hbad
        rcases List.mem_cons.mp hq with rfl | hq
        · exact absurd hstd hqs
        · exact ⟨q, hq, hqs⟩
      refine patchLoop_err_key htt hn hp24f hp24d ps _ _
        (fun q hq => ?_) (fun q hq => ?_)
        (fun q hq => (dictUpdate_keys fd p fnew).symm ▸
          hkf q (List.mem_cons_of_mem _ hq))
        (fun q hq => (dictUpdate_keys dfd p dfnew).symm ▸
          hkdf q (List.mem_cons_of_mem _ hq))
        hbad'
      · rcases dictUpdate_mem hq with rfl | hq
        · exact hfN
        · exact h1 _ hq
      · rcases dictUpdate_mem hq with rfl | hq
        · exact hdfN
        · exact h2 _ hq
    · exact ⟨p, hstd, patchLoop_bad_head hstd⟩

/-- With a nonempty time window, standard patch names, and some patch whose
column range reaches past the number of fitted polynomials (the control
width), the loop surfaces an index error. -/
theorem patchLoop_err_idx {polys dpolys : List (ℚ → ℚ)} {t : ℚ}
    {tt' : List ℚ} {n nt N : ℕ}
    (htt : (t :: tt').length = nt) (hn : n + nt ≤ N)
    (hw : dpolys.length = polys.length) :
    ∀ (ps : List String) (fd dfd : List (String × List Row)),
    DictLen N fd → DictLen N dfd →
    (∀ p ∈ ps, p ∈ fd.map Prod.fst) → (∀ p ∈ ps, p ∈ dfd.map Prod.fst) →
    (∀ p ∈ ps, p ∈ stdPatchNames) →
    (∃ p ∈ ps, ∃ r, rangeDefE p = .ok r ∧ ∃ i ∈ r, polys.length ≤ i) →
    ∃ j, patchLoop polys dpolys (t :: tt') n nt ps fd dfd =
      .error (.indexError j)
  | [], _, _, _, _, _, _, _, hex => by simp at hex
  | p :: ps, fd, dfd, h1, h2, hkf, hkdf, hstd, hex => by
    by_cases hbadp : ∃ r, rangeDefE p = .ok r ∧ ∃ i ∈ r, polys.length ≤ i
    · obtain ⟨r, hr, hexr⟩ := hbadp
      obtain ⟨j, -, hj⟩ := fRowAt_err_idx t hr hexr
      have hm : mapE (fRowAt polys p) (t :: tt') = .error (.indexError j) := by
        show (fRowAt polys p t >>= fun b =>
          mapE (fRowAt polys p) tt' >>= fun bs => pure (b :: bs)) = _
        rw [hj, error_bind]
      refine ⟨j, ?_⟩
      show (mapE (fRowAt polys p) (t :: tt') >>= _) = _
      rw [hm, error_bind]
    · obtain ⟨r, hr, hr6, hlt⟩ :=
        std_range_facts p (hstd p (List.mem_cons_self p ps))
      have hinrange : ∀ i ∈ r, i < polys.length := by
        intro i hi
        by_contra hcon
        exact hbadp ⟨r, hr, i, hi, by omega⟩
      obtain ⟨fnew, dfnew, hstep, hfN, hdfN⟩ := patchStep_ok htt hn h1 h2
        (hkf p (List.mem_cons_self p ps)) (hkdf p (List.mem_cons_self p ps))
        (fun _ => ⟨r, hr, hr6, fun i hi =>
          ⟨hinrange i hi, hw ▸ hinrange i hi⟩⟩) ps
      rw [hstep]
      have hex' : ∃ q ∈ ps, ∃ r', rangeDefE q = .ok r' ∧
          ∃ i ∈ r', polys.length ≤ i := by
        obtain ⟨q, hq, r', hr', hi⟩ := hex
        rcases List.mem_cons.mp hq with rfl | hq
        · rw [hr] at hr'
          cases hr'
          exact absurd ⟨r, hr, hi⟩ hbadp
        · exact ⟨q, hq, r', hr', hi⟩
      refine patchLoop_err_idx htt hn hw ps _ _
        (fun q hq => ?_) (fun q hq => ?_)
        (fun q hq => (dictUpdate_keys fd p fnew).symm ▸
          hkf q (List.mem_cons_of_mem _ hq))
        (fun q hq => (dictUpdate_keys dfd p dfnew).symm ▸
          hkdf q (List.mem_cons_of_mem _ hq))
        (fun q hq => hstd q (List.mem_cons_of_mem _ hq))
        hex'
      · rcases dictUpdate_mem hq with rfl | hq
        · exact hfN
        · exact h1 _ hq
      · rcases dictUpdate_mem hq with rfl | hq
        · exact hdfN
        · exact h2 _ hq

/-- If at every segment with a nonempty sample window the patch loop raises
an error satisfying `E`, the whole segment pass raises an error satisfying
`E` as soon as some segment has samples (segments without samples are passed
over without touching the fitted polynomials, exactly as the per-sample
comprehension never runs). -/
theorem segLoop_err (pf : PolyFit) (mass : ℚ) (patches : List String)
    (t_traj : List ℚ) {N : ℕ} (wc : ℕ) (hN : t_traj.length = N)
    (E : CErr → Prop)
    (hstep : ∀ seg, SegWF wc seg → seg.state_trajectory ≠ [] →
      ∀ (tt : List ℚ) (n : ℕ) (fd dfd : List (String × List Row)),
      tt ≠ [] → tt.length = seg.state_trajectory.length →
      n + seg.state_trajectory.length ≤ N →
      DictLen N fd → DictLen N dfd →
      (∀ p ∈ patches, p ∈ fd.map Prod.fst) →
      (∀ p ∈ patches, p ∈ dfd.map Prod.fst) →
      ∃ e, E e ∧ patchLoop (pf.fit tt seg.control_trajectory).1
        (pf.fit tt seg.control_trajectory).2 tt n
        seg.state_trajectory.length patches fd dfd = .error e) :
    ∀ (segs : List Segment) (n : ℕ) (acc : PhiAcc),
    (∀ seg ∈ segs, SegWF wc seg) → AccLen N acc →
    (∀ p ∈ patches, p ∈ acc.f.map Prod.fst) →
    (∀ p ∈ patches, p ∈ acc.df.map Prod.fst) →
    n + (segs.map (fun s => s.state_trajectory.length)).sum = N →
    (∃ seg ∈ segs, seg.state_trajectory ≠ []) →
    ∃ e, E e ∧ segLoop pf mass t_traj patches segs n acc = .error e
  | [], n, acc, _, _, _, _, _, hne => by simp at hne
  | seg :: rest, n, acc, hwf, hacc, hkf, hkdf, hn, hne => by
    obtain ⟨hwt, hwd, hwu, hwx6, hwdx6, hwu24⟩ :=
      hwf seg (List.mem_cons_self seg rest)
    have hsum : n + seg.state_trajectory.length +
        (rest.map (fun s => s.state_trajectory.length)).sum = N := by
      simpa [Nat.add_assoc] using hn
    have hnt : n + seg.state_trajectory.length ≤ N := by omega
    have htt : ((t_traj.drop n).take seg.state_trajectory.length).length =
        seg.state_trajectory.length := by
      simp only [List.length_take, List.length_drop, hN]
      omega
    have hcom := setSliceE_ok_of acc.com_vcom
      (by simp : (seg.state_trajectory.map (fun r => r.take 6)).length =
        seg.state_trajectory.length)
      (by rw [hacc.2.2.1]; exact hnt)
      (fun r hr => by
        obtain ⟨x0, hx0, rfl⟩ := List.mem_map.mp hr
        have := hwx6 x0 hx0
        simp only [List.length_take]
        omega)
    have hvcom := setSliceE_ok_of acc.vcom_acom
      (by simp [hwd] : (seg.dot_state_trajectory.map
          (fun r => r.take 6)).length = seg.state_trajectory.length)
      (by rw [hacc.2.2.2.1]; exact hnt)
      (fun r hr => by
        obtain ⟨x0, hx0, rfl⟩ := List.mem_map.mp hr
        have := hwdx6 x0 hx0
        simp only [List.length_take]
        omega)
    have hhg := setSliceE_ok_of acc.hg
      (by simp : (seg.state_trajectory.map (hgRow mass)).length =
        seg.state_trajectory.length)
      (by rw [hacc.2.2.2.2.1]; exact hnt)
      (fun r hr => by
        obtain ⟨x0, hx0, rfl⟩ := List.mem_map.mp hr
        exact hgRow_length (hwx6 x0 hx0))
    have hdhg := setSliceE_ok_of acc.dhg
      (by simp [hwd] : (seg.dot_state_trajectory.map (hgRow mass)).length =
        seg.state_trajectory.length)
      (by rw [hacc.2.2.2.2.2]; exact hnt)
      (fun r hr => by
        obtain ⟨x0, hx0, rfl⟩ := List.mem_map.mp hr
        exact hgRow_length (hwdx6 x0 hx0))
    by_cases hx : seg.state_trajectory = []
    · -- no samples: the segment is passed over and the loop continues
      have hnt0 : seg.state_trajectory.length = 0 := by simp [hx]
      have htt0 : (t_traj.drop n).take seg.state_trajectory.length = [] := by
        rw [hnt0]
        rfl
      obtain ⟨fd', dfd', hploop, hd1, hd2, hk1, hk2⟩ :=
        patchLoop_ok
          (pf.fit ((t_traj.drop n).take seg.state_trajectory.length)
            seg.control_trajectory).1
          (pf.fit ((t_traj.drop n).take seg.state_trajectory.length)
            seg.control_trajectory).2
          htt hnt patches acc.f acc.df hacc.1 hacc.2.1 hkf hkdf
          (fun hcon _ _ => absurd htt0 hcon)
      have hbad' : ∃ s ∈ rest, s.state_trajectory ≠ [] := by
        obtain ⟨s, hs, hsne⟩ := hne
        rcases List.mem_cons.mp hs with rfl | hs
        · exact absurd hx hsne
        · exact ⟨s, hs, hsne⟩
      obtain ⟨e, hE, hrec⟩ := segLoop_err pf mass patches t_traj wc hN E
        hstep rest
        (n + seg.state_trajectory.length)
        { f := fd', df := dfd',
          com_vcom := acc.com_vcom.take n ++
            seg.state_trajectory.map (fun r => r.take 6) ++
            acc.com_vcom.drop (n + seg.state_trajectory.length),
          vcom_acom := acc.vcom_acom.take n ++
            seg.dot_state_trajectory.map (fun r => r.take 6) ++
            acc.vcom_acom.drop (n + seg.state_trajectory.length),
          hg := acc.hg.take n ++ seg.state_trajectory.map (hgRow mass) ++
            acc.hg.drop (n + seg.state_trajectory.length),
          dhg := acc.dhg.take n ++
            seg.dot_state_trajectory.map (hgRow mass) ++
            acc.dhg.drop (n + seg.state_trajectory.length) }
        (fun s hs => hwf s (List.mem_cons_of_mem _ hs))
        ⟨hd1, hd2,
          (setSliceE_ok_length hcom).trans hacc.2.2.1,
          (setSliceE_ok_length hvcom).trans hacc.2.2.2.1,
          (setSliceE_ok_length hhg).trans hacc.2.2.2.2.1,
          (setSliceE_ok_length hdhg).trans hacc.2.2.2.2.2⟩
        (fun p hp => by
          show p ∈ fd'.map Prod.fst
          rw [hk1]
          exact hkf p hp)
        (fun p hp => by
          show p ∈ dfd'.map Prod.fst
          rw [hk2]
          exact hkdf p hp)
        hsum hbad'
      refine ⟨e, hE, ?_⟩
      show (setSliceE acc.com_vcom n seg.state_trajectory.length
        (seg.state_trajectory.map (fun r => r.take 6)) >>= fun com => _) = _
      rw [hcom, ok_bind]
      show (setSliceE acc.vcom_acom n seg.state_trajectory.length
        (seg.dot_state_trajectory.map (fun r => r.take 6)) >>=
          fun vcom => _) = _
      rw [hvcom, ok_bind]
      show (setSliceE acc.hg n seg.state_trajectory.length
        (seg.state_trajectory.map (hgRow mass)) >>= fun hg => _) = _
      rw [hhg, ok_bind]
      show (setSliceE acc.dhg n seg.state_trajectory.length
        (seg.dot_state_trajectory.map (hgRow mass)) >>= fun dhg => _) = _
      rw [hdhg, ok_bind]
      show (patchLoop _ _ _ n seg.state_trajectory.length patches acc.f
        acc.df >>= fun fdicts => _) = _
      rw [hploop, ok_bind]
      exact hrec
    · -- samples present: the patch loop raises here
      have httne : (t_traj.drop n).take seg.state_trajectory.length ≠ [] := by
        intro hcon
        have h0 := congrArg List.length hcon
        rw [htt] at h0
        exact hx (List.length_eq_zero.mp h0)
      obtain ⟨e, hE, hploop⟩ := hstep seg
        (hwf seg (List.mem_cons_self seg rest)) hx
        ((t_traj.drop n).take seg.state_trajectory.length) n acc.f acc.df
        httne htt hnt hacc.1 hacc.2.1 hkf hkdf
      refine ⟨e, hE, ?_⟩
      show (setSliceE acc.com_vcom n seg.state_trajectory.length
        (seg.state_trajectory.map (fun r => r.take 6)) >>= fun com => _) = _
      rw [hcom, ok_bind]
      show (setSliceE acc.vcom_acom n seg.state_trajectory.length
        (seg.dot_state_trajectory.map (fun r => r.take 6)) >>=
          fun vcom => _) = _
      rw [hvcom, ok_bind]
      show (setSliceE acc.hg n seg.state_trajectory.length
        (seg.state_trajectory.map (hgRow mass)) >>= fun hg => _) = _
      rw [hhg, ok_bind]
      show (setSliceE acc.dhg n seg.state_trajectory.length
        (seg.dot_state_trajectory.map (hgRow mass)) >>= fun dhg => _) = _
      rw [hdhg, ok_bind]
      show (patchLoop _ _ _ n seg.state_trajectory.length patches acc.f
        acc.df >>= fun fdicts => _) = _
      rw [hploop, error_bind]

theorem ctrl_head_width {seg : Segment} {wc : ℕ} (hwf : SegWF wc seg)
    (hx : seg.state_trajectory ≠ []) :
    (seg.control_trajectory.head?.getD []).length = wc := by
  obtain ⟨-, -, hwu, -, -, hwu24⟩ := hwf
  cases hc : seg.control_trajectory with
  | nil =>
    rw [hc] at hwu
    exact absurd (List.length_eq_zero.mp hwu.symm) hx
  | cons u0 us =>
    simp only [List.head?_cons, Option.getD_some]
    exact hwu24 u0 (hc ▸ List.mem_cons_self u0 us)

/-- Claim C8: a patch name outside the fixed set `range_def` knows makes
`createCentroidalPhi` raise a key-lookup error while slicing that patch's
force columns (given well-formed segments, at least one of them with
samples), and the raise leaves the wrapper's `phi_c` container unchanged,
since `self.phi_c` is only written after all per-segment processing. -/
theorem claim_C8_unknown_patch {D : Type} (eng : Engine D) (pf : PolyFit)
    (w : World D)
    (hwf : ∀ seg ∈ w.cs.ms_interval_data.dropLast, SegWF 24 seg)
    (hbad : ∃ p ∈ w.ee_map.map Prod.fst, p ∉ stdPatchNames)
    (hne : ∃ seg ∈ w.cs.ms_interval_data.dropLast,
      seg.state_trajectory ≠ []) :
    (∃ q, q ∉ stdPatchNames ∧
      (createCentroidalPhiRun eng pf w).2 = .error (.keyError q)) ∧
    (createCentroidalPhiRun eng pf w).1.phi_c = w.phi_c := by
  have hcore : ∀ (mass : ℚ) (old : CentroidalPhi),
      ∃ q, q ∉ stdPatchNames ∧
      createCentroidalPhi pf mass (w.ee_map.map Prod.fst) w.cs old =
        .error (.keyError q) := by
    intro mass old
    have hsum : 0 + ((w.cs.ms_interval_data.dropLast).map
        (fun s => s.state_trajectory.length)).sum =
        (concatTimeline w.cs.ms_interval_data.dropLast).length := by
      unfold concatTimeline
      rw [List.length_flatten, List.map_map]
      rw [show List.map (List.length ∘ Segment.time_trajectory)
          w.cs.ms_interval_data.dropLast =
          List.map (fun s => s.state_trajectory.length)
            w.cs.ms_interval_data.dropLast from
        List.map_congr_left (fun s hs => (hwf s hs).1)]
      omega
    obtain ⟨e, hE, hseg⟩ := segLoop_err pf mass (w.ee_map.map Prod.fst)
      (concatTimeline w.cs.ms_interval_data.dropLast) 24
      rfl (fun e => ∃ q, q ∉ stdPatchNames ∧ e = .keyError q)
      (fun seg hwfseg hxne tt n fd dfd htne httlen hn h1 h2 hkf hkdf => by
        cases tt with
        | nil => exact absurd rfl htne
        | cons t tt' =>
          have hp24f : 24 ≤
              (pf.fit (t :: tt') seg.control_trajectory).1.length := by
            rw [pf.fit_len_fst, ctrl_head_width hwfseg hxne]
          have hp24d : 24 ≤
              (pf.fit (t :: tt') seg.control_trajectory).2.length := by
            rw [pf.fit_len_snd, ctrl_head_width hwfseg hxne]
          obtain ⟨q, hq, herr⟩ := patchLoop_err_key httlen hn hp24f hp24d
            (w.ee_map.map Prod.fst) fd dfd h1 h2 hkf hkdf hbad
          exact ⟨.keyError q, ⟨q, hq, rfl⟩, herr⟩)
      w.cs.ms_interval_data.dropLast 0
      (initPhi (w.ee_map.map Prod.fst)
        (concatTimeline w.cs.ms_interval_data.dropLast).length)
      hwf (initPhi_len _ _)
      (fun p hp => ((initPhi_keys _ _).1).symm ▸ hp)
      (fun p hp => ((initPhi_keys _ _).2).symm ▸ hp)
      hsum hne
    obtain ⟨q, hq, rfl⟩ := hE
    refine ⟨q, hq, ?_⟩
    show (preDedupAcc pf mass (w.ee_map.map Prod.fst) w.cs >>= _) = _
    rw [show preDedupAcc pf mass (w.ee_map.map Prod.fst) w.cs =
        .error (.keyError q) from hseg, error_bind]
  obtain ⟨q, hq, hc⟩ := hcore
    (eng.crba00 w.rmodel w.rdata (eng.neutral w.rmodel)).1 w.phi_c
  refine ⟨⟨q, hq, ?_⟩, ?_⟩
  · simp only [createCentroidalPhiRun]
    rw [hc]
  · simp only [createCentroidalPhiRun]
    rw [hc]

/-- Claim C7 (amended): a control width *smaller* than the 24 columns the
patch ranges expect makes `createCentroidalPhi` fail — the force slicing
indexes a fitted column polynomial that does not exist, an index error (for
the four standard patches, well-formed segments, one of them with samples). -/
theorem claim_C7_narrow_control_width (pf : PolyFit) (mass : ℚ)
    (cs : ContactSequence) (old : CentroidalPhi) (wctrl : ℕ)
    (hwf : ∀ seg ∈ cs.ms_interval_data.dropLast, SegWF wctrl seg)
    (hw : wctrl < 24)
    (hne : ∃ seg ∈ cs.ms_interval_data.dropLast,
      seg.state_trajectory ≠ []) :
    ∃ i, createCentroidalPhi pf mass stdPatchNames cs old =
      .error (.indexError i) := by
  have hsum : 0 + ((cs.ms_interval_data.dropLast).map
      (fun s => s.state_trajectory.length)).sum =
      (concatTimeline cs.ms_interval_data.dropLast).length := by
    unfold concatTimeline
    rw [List.length_flatten, List.map_map]
    rw [show List.map (List.length ∘ Segment.time_trajectory)
        cs.ms_interval_data.dropLast =
        List.map (fun s => s.state_trajectory.length)
          cs.ms_interval_data.dropLast from
      List.map_congr_left (fun s hs => (hwf s hs).1)]
    omega
  obtain ⟨e, hE, hseg⟩ := segLoop_err pf mass stdPatchNames
    (concatTimeline cs.ms_interval_data.dropLast) wctrl
    rfl (fun e => ∃ i, e = .indexError i)
    (fun seg hwfseg hxne tt n fd dfd htne httlen hn h1 h2 hkf hkdf => by
      cases tt with
      | nil => exact absurd rfl htne
      | cons t tt' =>
        have hpf : (pf.fit (t :: tt') seg.control_trajectory).1.length =
            wctrl := by
          rw [pf.fit_len_fst, ctrl_head_width hwfseg hxne]
        have hpd : (pf.fit (t :: tt') seg.control_trajectory).2.length =
            (pf.fit (t :: tt') seg.control_trajectory).1.length := by
          rw [pf.fit_len_snd, pf.fit_len_fst]
        obtain ⟨j, herr⟩ := patchLoop_err_idx httlen hn hpd stdPatchNames
          fd dfd h1 h2 hkf hkdf (fun p hp => hp)
          ⟨"LH_patch", by decide, List.range' 18 6, rfl, 23, by decide,
            by rw [hpf]; omega⟩
        exact ⟨.indexError j, ⟨j, rfl⟩, herr⟩)
    cs.ms_interval_data.dropLast 0
    (initPhi stdPatchNames
      (concatTimeline cs.ms_interval_data.dropLast).length)
    hwf (initPhi_len _ _)
    (fun p hp => ((initPhi_keys _ _).1).symm ▸ hp)
    (fun p hp => ((initPhi_keys _ _).2).symm ▸ hp)
    hsum hne
  obtain ⟨i, rfl⟩ := hE
  refine ⟨i, ?_⟩
  show (preDedupAcc pf mass stdPatchNames cs >>= _) = _
  rw [show preDedupAcc pf mass stdPatchNames cs =
      .error (.indexError i) from hseg, error_bind]

/-- A segment whose control rows are 30 wide — wider than the 24 columns the
patch ranges cover. -/
def wideSeg : Segment where
  time_trajectory := [0, 1]
  state_trajectory := [List.replicate 9 0, List.replicate 9 1]
  dot_state_trajectory := [List.replicate 9 0, List.replicate 9 1]
  control_trajectory := [List.replicate 30 0, List.replicate 30 0]

/-- A contact sequence whose one effective segment has width-30 controls. -/
def wideCS : ContactSequence where
  ms_interval_data := [wideSeg, markerSeg]

/-- Claim C7's counterexample: a control width of 30 differs from 24, yet
`createCentroidalPhi` completes without any error — the columns past 24 are
simply never read. -/
theorem claim_C7_counterexample :
    (∀ r ∈ wideSeg.control_trajectory, r.length = 30) ∧ (30 : ℕ) ≠ 24 ∧
    (createCentroidalPhi trivialFit 1 stdPatchNames wideCS
      emptyCentroidalPhi).isOk = true :=
  ⟨by decide, by decide, by with_unfolding_all decide⟩

/-- A segment whose control rows are 12 wide — narrower than expected. -/
def narrowSeg : Segment where
  time_trajectory := [0, 1]
  state_trajectory := [List.replicate 9 0, List.replicate 9 1]
  dot_state_trajectory := [List.replicate 9 0, List.replicate 9 1]
  control_trajectory := [List.replicate 12 0, List.replicate 12 0]

/-- A contact sequence whose one effective segment has width-12 controls. -/
def narrowCS : ContactSequence where
  ms_interval_data := [narrowSeg, markerSeg]

theorem claim_C7_witness :
    (∀ seg ∈ narrowCS.ms_interval_data.dropLast, SegWF 12 seg) ∧
    (12 : ℕ) < 24 ∧
    (∃ i, createCentroidalPhi trivialFit 1 stdPatchNames narrowCS
      emptyCentroidalPhi = .error (.indexError i)) :=
  ⟨by with_unfolding_all decide, by decide,
   claim_C7_narrow_control_width trivialFit 1 narrowCS emptyCentroidalPhi 12
     (by with_unfolding_all decide) (by decide)
     (by with_unfolding_all decide)⟩

/-- The wrapper state used for claim C8's witness: its end-effector map holds
the unknown patch name `XX_patch`. -/
def badPatchWorld : World Unit where
  rmodel := ⟨1, 1⟩
  rdata := ()
  cs := ⟨[scnSeg1, markerSeg]⟩
  ee_map := [("XX_patch", "f")]
  ee_splines := none
  phi_c := emptyCentroidalPhi

theorem claim_C8_witness :
    (∀ seg ∈ badPatchWorld.cs.ms_interval_data.dropLast, SegWF 24 seg) ∧
    (∃ p ∈ badPatchWorld.ee_map.map Prod.fst, p ∉ stdPatchNames) ∧
    ((∃ q, q ∉ stdPatchNames ∧
      (createCentroidalPhiRun unitEngine trivialFit badPatchWorld).2 =
        .error (.keyError q)) ∧
     (createCentroidalPhiRun unitEngine trivialFit badPatchWorld).1.phi_c =
       badPatchWorld.phi_c) :=
  ⟨by with_unfolding_all decide, by decide,
   claim_C8_unknown_patch unitEngine trivialFit badPatchWorld
     (by with_unfolding_all decide) (by decide)
     (by with_unfolding_all decide)⟩
